import Mathlib

/-!
Verification of the layout-reconstruction and field-extraction core of the
receipts-ocr backend (src/backend/app.py).

The Python code is shallowly embedded: strings are `List Char`, Python floats
are modelled by exact rationals `ℚ` (all quantities compared by the claims are
far from binary-rounding boundaries), and every function is an executable
Lean `def` translated line by line from the source.  Regular-expression
substitutions are embedded as explicit left-to-right scanners that mirror
Python `re.sub` semantics (leftmost match, non-overlapping, continue after the
match) for the concrete patterns appearing in the source.
-/

namespace ReceiptsOcr

/-- Characters removed by Python `str.strip()` (ASCII whitespace). -/
def isWsPy (c : Char) : Bool :=
  c = ' ' || c = '\t' || c = '\n' || c = '\r' || c = Char.ofNat 11 || c = Char.ofNat 12

/-- Python regex word character `\w` for the ASCII strings handled here. -/
def isWordPy (c : Char) : Bool := c.isAlphanum || c = '_'

/-- Python `str.strip()`: drop ASCII whitespace from both ends. -/
def pyStrip (s : List Char) : List Char :=
  ((s.dropWhile isWsPy).reverse.dropWhile isWsPy).reverse

/-- Generic fuelled left-to-right rewriting scanner.  At each position, `step`
either consumes a nonempty chunk of the input (returning the replacement text
and the remaining suffix) or the scanner copies one character and moves on.
This is the shape shared by Python `str.replace` and by `re.sub` for the
patterns used in the source (none of which can match the empty string). -/
def scanRewrite (step : List Char → Option (List Char × List Char)) :
    Nat → List Char → List Char
  | 0, s => s
  | _ + 1, [] => []
  | fuel + 1, c :: r =>
    match step (c :: r) with
    | some (e, rest) => e ++ scanRewrite step fuel rest
    | none => c :: scanRewrite step fuel r

/-- Step for Python `str.replace(pat, rep)` (all occurrences, left to right). -/
def replStep (pat rep : List Char) (s : List Char) : Option (List Char × List Char) :=
  if pat ≠ [] ∧ pat.isPrefixOf s then some (rep, s.drop pat.length) else none

/-- Python `s.replace(pat, rep)`. -/
def pyReplace (s pat rep : List Char) : List Char := scanRewrite (replStep pat rep) s.length s

/-- `t` starts with the word `w` up to ASCII case (`w` given in lowercase). -/
def startsCI (w t : List Char) : Bool :=
  decide (w.length ≤ t.length) && ((t.take w.length).map Char.toLower == w)

/-- Regex word boundary `\b` holds between a word character and this suffix. -/
def noWordAt : List Char → Bool
  | [] => true
  | c :: _ => !(isWordPy c)

/-- Step for `(\d)(W s?)\b` with IGNORECASE, replacement `\1 \2` (source rules
for `Items?`/`Units?`).  `w2` is the plural, `w1` the singular, lowercase. -/
def digitWordStep (w2 w1 : List Char) (s : List Char) : Option (List Char × List Char) :=
  match s with
  | [] => none
  | c :: r =>
    if c.isDigit then
      if startsCI w2 r ∧ noWordAt (r.drop w2.length) then
        some (c :: ' ' :: r.take w2.length, r.drop w2.length)
      else if startsCI w1 r ∧ noWordAt (r.drop w1.length) then
        some (c :: ' ' :: r.take w1.length, r.drop w1.length)
      else none
    else none

/-- Step for `\)([A-Z][a-z]{2,})`, replacement `) \1`. -/
def parenCapStep : List Char → Option (List Char × List Char)
  | a :: c :: r =>
    if a = ')' ∧ c.isUpper ∧ 2 ≤ (r.takeWhile Char.isLower).length then
      some (a :: ' ' :: c :: r.takeWhile Char.isLower, r.dropWhile Char.isLower)
    else none
  | _ => none

/-- Step for `([a-z])(W)\b` with IGNORECASE, replacement `\1 \2` (source rules
for `Total`/`Subtotal`/`Tax`); IGNORECASE makes `[a-z]` match any ASCII
letter. -/
def letterWordStep (w : List Char) (s : List Char) : Option (List Char × List Char) :=
  match s with
  | [] => none
  | c :: r =>
    if c.isAlpha ∧ startsCI w r ∧ noWordAt (r.drop w.length) then
      some (c :: ' ' :: r.take w.length, r.drop w.length)
    else none

/-- Step for `(\w)&(\w)`, replacement `\1 & \2` (PATTERN_AMPERSAND). -/
def ampStep : List Char → Option (List Char × List Char)
  | a :: b :: c :: r =>
    if b = '&' ∧ isWordPy a ∧ isWordPy c then some ([a, ' ', b, ' ', c], r)
    else none
  | _ => none

/-- Step for `re.sub(" {2,}", " ")`: merge a double space, keeping one. -/
def spacesStep : List Char → Option (List Char × List Char)
  | a :: b :: r => if a = ' ' ∧ b = ' ' then some ([], b :: r) else none
  | _ => none

/-- Run one substitution pass over the whole string. -/
def runPass (step : List Char → Option (List Char × List Char)) (s : List Char) : List Char :=
  scanRewrite step s.length s

/-- OCR_CORRECTIONS from the source, in dict insertion order. -/
def ocrCorrections : List (List Char × List Char) :=
  [("Subtotai".data, "Subtotal".data), ("Totai".data, "Total".data),
   ("ltem".data, "Item".data), ("ltems".data, "Items".data),
   ("Qty".data, "Qty".data), ("QTy".data, "Qty".data), ("QTY".data, "Qty".data),
   ("Prlce".data, "Price".data), ("Arnount".data, "Amount".data),
   ("TAx".data, "Tax".data), ("TaX".data, "Tax".data),
   ("$0.00".data, "$0.00".data)]

/-- `clean_ocr_text` from the source: dictionary corrections, the six spacing
rules of REGEX_CORRECTIONS in order, ampersand spacing, space collapsing and a
final strip.  (The source guards each dictionary replace with a containment
test, which is redundant: replacing an absent key is the identity.) -/
def cleanChars (s : List Char) : List Char :=
  if s = [] then s
  else
    let c1 := ocrCorrections.foldl (fun acc p => pyReplace acc p.1 p.2) s
    let c2 := runPass (digitWordStep "items".data "item".data) c1
    let c3 := runPass (digitWordStep "units".data "unit".data) c2
    let c4 := runPass parenCapStep c3
    let c5 := runPass (letterWordStep "total".data) c4
    let c6 := runPass (letterWordStep "subtotal".data) c5
    let c7 := runPass (letterWordStep "tax".data) c6
    let c8 := runPass ampStep c7
    let c9 := runPass spacesStep c8
    pyStrip c9

/-- String-valued wrapper of `cleanChars`. -/
def clean_ocr_text (s : String) : String := ⟨cleanChars s.data⟩

/-- Match of PRICE_PATTERN's core `\d+\.\d{2}` at the start of `t`, returning
the matched substring.  Backtracking the greedy `\d+` is provably useless for
this pattern (a shorter digit run puts a digit where `\.` must match), so the
maximal digit run is taken directly. -/
def priceCore (t : List Char) : Option (List Char) :=
  if t.takeWhile Char.isDigit = [] then none
  else
    match t.drop (t.takeWhile Char.isDigit).length with
    | c0 :: c1 :: c2 :: _ =>
      if c0 = '.' ∧ c1.isDigit ∧ c2.isDigit
      then some (t.takeWhile Char.isDigit ++ [c0, c1, c2])
      else none
    | _ => none

/-- Match of PRICE_PATTERN `\$?\d+\.\d{2}` at the start of the string. -/
def priceMatchHere : List Char → Option (List Char)
  | [] => none
  | c :: t =>
    if c = '$' then (priceCore t).map (fun m => c :: m) else priceCore (c :: t)

/-- `re.search(PRICE_PATTERN, s)`: leftmost match. -/
def priceSearch : List Char → Option (List Char)
  | [] => none
  | c :: r =>
    match priceMatchHere (c :: r) with
    | some m => some m
    | none => priceSearch r

/-- Numeric value of a list of decimal digit characters. -/
def natOfDigits (l : List Char) : Nat :=
  l.foldl (fun n c => 10 * n + (c.toNat - '0'.toNat)) 0

/-- Modelled subset of Python `float()`: a string of decimal digits with at
most one dot parses to its exact decimal value, anything else fails (raises
ValueError, modelled as `none`).  The strings reaching this parser in the
embedded code are always matches of PRICE_PATTERN with `$`/`,` stripped, which
fall inside this subset. -/
def floatOfStr? (t : List Char) : Option ℚ :=
  match t.drop (t.takeWhile Char.isDigit).length with
  | [] =>
    if t.takeWhile Char.isDigit = [] then none
    else some (natOfDigits (t.takeWhile Char.isDigit) : ℚ)
  | c :: rest =>
    if c = '.' ∧ (∀ d ∈ rest, d.isDigit) ∧ (t.takeWhile Char.isDigit ≠ [] ∨ rest ≠ []) then
      some ((natOfDigits (t.takeWhile Char.isDigit) : ℚ) +
        (natOfDigits rest : ℚ) / (10 : ℚ) ^ rest.length)
    else none

/-- `match.group().replace("$", "").replace(",", "")`. -/
def stripDollarComma (m : List Char) : List Char :=
  m.filter (fun c => c ≠ '$' && c ≠ ',')

/-- `extract_price` from the source. -/
def extract_price (s : List Char) : Option ℚ :=
  match priceSearch s with
  | none => none
  | some m => floatOfStr? (stripDollarComma m)

/-- An OCR block as consumed by the layout and parsing code: recognized text,
confidence, and the `_x`/`_y`/`_w`/`_h` bounding-box fields. -/
structure Block where
  text : String
  confidence : ℚ
  x : ℚ
  y : ℚ
  w : ℚ
  h : ℚ
deriving DecidableEq, Repr

/-- Python `int()` on a float: truncation toward zero. -/
def pyInt (q : ℚ) : ℤ := if q < 0 then ⌈q⌉ else ⌊q⌋

/-- Key order used by `sorted(blocks, key=lambda b: b["_y"])`. -/
def byY (a b : Block) : Prop := a.y ≤ b.y

instance : DecidableRel byY := fun a b => inferInstanceAs (Decidable (a.y ≤ b.y))

instance : IsTotal Block byY := ⟨fun a b => le_total a.y b.y⟩

instance : IsTrans Block byY := ⟨fun _ _ _ => le_trans⟩

/-- Stable sort by `_y`, as Python `sorted` with a `_y` key. -/
def sortByY (l : List Block) : List Block := l.insertionSort byY

/-- Key order used by `sorted(card_blocks, key=lambda b: (b["_y"], b["_x"]))`. -/
def byYX (a b : Block) : Prop := a.y < b.y ∨ (a.y = b.y ∧ a.x ≤ b.x)

instance : DecidableRel byYX := fun a b =>
  inferInstanceAs (Decidable (a.y < b.y ∨ (a.y = b.y ∧ a.x ≤ b.x)))

/-- Stable sort by `(_y, _x)`. -/
def sortByYX (l : List Block) : List Block := l.insertionSort byYX

/-- Ascending sort of rationals (`sorted(...)` in Python). -/
def sortQ (l : List ℚ) : List ℚ := l.insertionSort (· ≤ ·)

/-- `sorted(l)[len(l) // 2] if l else dflt` — the source's median idiom. -/
def medianOfQ (l : List ℚ) (dflt : ℚ) : ℚ :=
  if l = [] then dflt else (sortQ l).getD (l.length / 2) 0

/-- `median_height` for a block list (fallback 30 as in the source). -/
def medianHeight (blocks : List Block) : ℚ := medianOfQ (blocks.map (·.h)) 30

/-- `median_width` for a block list (fallback 100 as in the source). -/
def medianWidth (blocks : List Block) : ℚ := medianOfQ (blocks.map (·.w)) 100

/-- Ascending sort of integers. -/
def sortInt (l : List ℤ) : List ℤ := l.insertionSort (· ≤ ·)

/-- `sorted({int(b["_x"]) for b in blocks})`: distinct truncated x-starts,
ascending. -/
def allXStarts (blocks : List Block) : List ℤ :=
  sortInt ((blocks.map (fun b => pyInt b.x)).dedup)

/-- `gap_threshold = max(median_width * 1.5, 300)`. -/
def gapThreshold (blocks : List Block) : ℚ := max (medianWidth blocks * (3 / 2)) 300

/-- Column boundaries: the first x-start, plus the right end of every
consecutive-x gap at or above the threshold, sorted (STEP 1 of
`analyze_layout_column_first`; the loop over `x_gaps` in x order is the
`filterMap` over consecutive pairs). -/
def colBoundaries (blocks : List Block) : List ℤ :=
  let xs := allXStarts blocks
  let base : List ℤ := match xs with | [] => [0] | x :: _ => [x]
  let sel := (xs.zip xs.tail).filterMap
    (fun p => if gapThreshold blocks ≤ ((p.2 - p.1 : ℤ) : ℚ) then some p.2 else none)
  sortInt (base ++ sel)

/-- The loop `for i, col_x in enumerate(col_boundaries): if block_x >= col_x - 50:
col_idx = i`, starting from `col_idx = 0`. -/
def colIdxAux (bx : ℚ) : List ℤ → Nat → Nat → Nat
  | [], _, acc => acc
  | c :: rest, i, acc => colIdxAux bx rest (i + 1) (if (c : ℚ) - 50 ≤ bx then i else acc)

/-- Column index assigned to a block (STEP 2). -/
def colIdxOf (blocks : List Block) (b : Block) : Nat :=
  colIdxAux b.x (colBoundaries blocks) 0 0

/-- The blocks appended to `columns[i]` while iterating `blocks` in order:
exactly the blocks whose assigned index is `i`, in input order. -/
def columnBlocks (blocks : List Block) (i : Nat) : List Block :=
  blocks.filter (fun b => colIdxOf blocks b = i)

/-- `y_gap_threshold = median_height * 1.2`. -/
def yGapThreshold (blocks : List Block) : ℚ := medianHeight blocks * (6 / 5)

/-- The walk inside `cluster_column_blocks`: `cur` is the current card
(nonempty), `bottom` the running `current_y_max`; a gap of at least `thr`
closes the card.  The final card is always emitted. -/
def clusterWalk (thr : ℚ) : List Block → ℚ → List Block → List (List Block)
  | cur, _, [] => [cur]
  | cur, bottom, f :: rest =>
    if thr ≤ f.y - bottom then cur :: clusterWalk thr [f] (f.y + f.h) rest
    else clusterWalk thr (cur ++ [f]) (max bottom (f.y + f.h)) rest

/-- `cluster_column_blocks` from the source (threshold passed explicitly; the
source reads it from the enclosing scope). -/
def cluster_column_blocks (thr : ℚ) (colBlocks : List Block) : List (List Block) :=
  match sortByY colBlocks with
  | [] => []
  | f :: rest => clusterWalk thr [f] (f.y + f.h) rest

/-- Cards of column `i` (STEP 3). -/
def cardsOf (blocks : List Block) (i : Nat) : List (List Block) :=
  cluster_column_blocks (yGapThreshold blocks) (columnBlocks blocks i)

/-- `num_cols = len(col_boundaries)`. -/
def numCols (blocks : List Block) : Nat := (colBoundaries blocks).length

/-- `max_cards_per_col`, accumulated with `max` over the columns in order. -/
def numRows (blocks : List Block) : Nat :=
  (List.range (numCols blocks)).foldl (fun m i => max m (cardsOf blocks i).length) 0

/-- `max(confidences)` over a card (cards are never empty). -/
def maxConf : List Block → ℚ
  | [] => 0
  | b :: r => r.foldl (fun m c => max m c.confidence) b.confidence

/-- `" ".join(b["text"] for b in sorted_card)`. -/
def joinTexts (l : List Block) : String := String.intercalate " " (l.map (·.text))

/-- Cell text at row `r` for a column's card list: reading-order join of the
card's texts, cleaned; empty when the column has no card at this row. -/
def cellText (cards : List (List Block)) (r : Nat) : String :=
  match cards.get? r with
  | some card => clean_ocr_text (joinTexts (sortByYX card))
  | none => ""

/-- Cell confidence at row `r`: max confidence of the card, 0 otherwise. -/
def cellConf (cards : List (List Block)) (r : Nat) : ℚ :=
  match cards.get? r with
  | some card => maxConf (sortByYX card)
  | none => 0

/-- One reconstructed table row. -/
structure TableRow where
  row : Nat
  cells : List String
  confidences : List ℚ
deriving DecidableEq, Repr

/-- The layout-analysis result (the source's returned dict; the rebuilt
`blocks` list is derived output not examined by any claim and is omitted). -/
structure LayoutResult where
  table_rows : List TableRow
  column_count : Nat
  row_count : Nat
  raw_text : String
deriving DecidableEq, Repr

/-- Cells of row `r` across all columns. -/
def rowCells (blocks : List Block) (r : Nat) : List String :=
  (List.range (numCols blocks)).map (fun c => cellText (cardsOf blocks c) r)

/-- Confidences of row `r` across all columns. -/
def rowConfs (blocks : List Block) (r : Nat) : List ℚ :=
  (List.range (numCols blocks)).map (fun c => cellConf (cardsOf blocks c) r)

/-- `"\t".join(row_cells)`. -/
def rowJoin (cells : List String) : String := String.intercalate "\t" cells

/-- `analyze_layout_column_first` from the source. -/
def analyze_layout_column_first (blocks : List Block) : LayoutResult :=
  if blocks = [] then ⟨[], 0, 0, ""⟩
  else
    let rows := (List.range (numRows blocks)).map
      (fun r => TableRow.mk r (rowCells blocks r) (rowConfs blocks r))
    let lines := ((List.range (numRows blocks)).map
      (fun r => rowJoin (rowCells blocks r))).filter (fun t => pyStrip t.data ≠ [])
    ⟨rows, numCols blocks, numRows blocks, String.intercalate "\n" lines⟩

/-- A parsed line item. -/
structure LineItem where
  name : String
  quantity : Nat
  unit_price : ℚ
  total_price : ℚ
deriving DecidableEq, Repr

/-- The parsed receipt record. -/
structure ParsedReceipt where
  store_name : Option String
  items : List LineItem
  subtotal : Option ℚ
  tax : Option ℚ
  total : Option ℚ
deriving DecidableEq, Repr

/-- Python truthiness of `price` (a float or None): `None` and `0.0` are
falsy.  The source tests `... and price`, not `price is not None`. -/
def priceTruthy : Option ℚ → Bool
  | some v => v ≠ 0
  | none => false

/-- Python `needle in haystack` for strings: some suffix starts with it. -/
def containsLC (needle : List Char) : List Char → Bool
  | [] => needle.isPrefixOf []
  | c :: r => needle.isPrefixOf (c :: r) || containsLC needle r

/-- `text.lower()` (ASCII). -/
def lowerChars (s : List Char) : List Char := s.map Char.toLower

/-- The `exclude_keywords` list from `parse_receipt_text`. -/
def excludeKeywords : List (List Char) :=
  ["subtotal".data, "tax".data, "total".data, "change".data, "cash".data,
   "card".data, "credit".data, "debit".data]

/-- Step for `PRICE_PATTERN.sub("", text)`: delete each match. -/
def priceSubStep (s : List Char) : Option (List Char × List Char) :=
  (priceMatchHere s).map (fun m => ([], s.drop m.length))

/-- `PRICE_PATTERN.sub("", text)`. -/
def stripPrices (s : List Char) : List Char := runPass priceSubStep s

/-- The store-name scan: first of the first 3 y-sorted blocks whose stripped
raw text is nonempty and has no price match; its cleaned text is stored. -/
def storeNameOf (blocks : List Block) : Option String :=
  ((sortByY blocks).take 3).findSome? (fun b =>
    let t := pyStrip b.text.data
    if t ≠ [] ∧ (priceSearch t).isNone then some (clean_ocr_text ⟨t⟩) else none)

/-- One iteration of the classification loop in `parse_receipt_text`; the
state is `(items, subtotal, tax, total)`. -/
def parseStep (st : List LineItem × Option ℚ × Option ℚ × Option ℚ) (b : Block) :
    List LineItem × Option ℚ × Option ℚ × Option ℚ :=
  let (items, subtotal, tax, total) := st
  let text := cleanChars b.text.data
  let lower := lowerChars text
  let price := extract_price text
  if containsLC "subtotal".data lower ∧ priceTruthy price then
    (items, price, tax, total)
  else if containsLC "tax".data lower ∧ priceTruthy price then
    (items, subtotal, price, total)
  else if containsLC "total".data lower ∧ ¬ containsLC "subtotal".data lower
      ∧ priceTruthy price then
    (items, subtotal, tax, price)
  else if priceTruthy price ∧ text ≠ []
      ∧ ¬ excludeKeywords.any (fun k => containsLC k lower) then
    let nm := pyStrip (stripPrices text)
    if nm ≠ [] then
      (items ++ [⟨⟨nm⟩, 1, price.getD 0, price.getD 0⟩], subtotal, tax, total)
    else (items, subtotal, tax, total)
  else (items, subtotal, tax, total)

/-- `parse_receipt_text` from the source. -/
def parse_receipt_text (blocks : List Block) : ParsedReceipt :=
  let st := (sortByY blocks).foldl parseStep ([], none, none, none)
  ⟨storeNameOf blocks, st.1, st.2.1, st.2.2.1, st.2.2.2⟩

/-! ## Card clustering: separation and coverage -/

/-- The walk emits exactly the current card followed by the pending blocks. -/
theorem clusterWalk_join (thr : ℚ) :
    ∀ (rest : List Block) (cur : List Block) (bottom : ℚ),
      (clusterWalk thr cur bottom rest).flatten = cur ++ rest := by
  intro rest
  induction rest with
  | nil => intro cur bottom; simp [clusterWalk]
  | cons f rest ih =>
    intro cur bottom
    by_cases h : thr ≤ f.y - bottom
    · simp [clusterWalk, h, ih]
    · simp [clusterWalk, h, ih]

/-- Cards are pairwise separated: any block of an earlier card lies at least
`thr` above any block of a later card. -/
def CardsSep (thr : ℚ) (cards : List (List Block)) : Prop :=
  cards.Pairwise (fun c d => ∀ a ∈ c, ∀ b ∈ d, a.y + a.h + thr ≤ b.y)

/-- Invariant of the walk: if the pending blocks are sorted by `y` and the
running bottom dominates the current card, the emitted cards are pairwise
separated by at least `thr`. -/
theorem clusterWalk_sep (thr : ℚ) :
    ∀ (rest : List Block) (cur : List Block) (bottom : ℚ),
      rest.Sorted byY →
      (∀ a ∈ cur, a.y + a.h ≤ bottom) →
      CardsSep thr (clusterWalk thr cur bottom rest) := by
  intro rest
  induction rest with
  | nil =>
    intro cur bottom _ _
    simp [clusterWalk, CardsSep]
  | cons f rest ih =>
    intro cur bottom hsort hcur
    have hsort' : rest.Sorted byY := hsort.tail
    have hf : ∀ b ∈ rest, byY f b := List.rel_of_sorted_cons hsort
    by_cases h : thr ≤ f.y - bottom
    · have hcards := ih [f] (f.y + f.h) hsort' (by intro a ha; simp at ha; simp [ha])
      rw [clusterWalk, if_pos h]
      refine List.Pairwise.cons ?_ hcards
      intro d hd a ha b hb
      have hbj : b ∈ (clusterWalk thr [f] (f.y + f.h) rest).flatten :=
        List.mem_flatten.2 ⟨d, hd, hb⟩
      rw [clusterWalk_join] at hbj
      have hfb : f.y ≤ b.y := by
        rcases List.mem_append.1 hbj with hb' | hb'
        · simp at hb'; simp [hb']
        · exact hf b hb'
      have := hcur a ha
      linarith [hcur a ha]
    · rw [clusterWalk, if_neg h]
      refine ih (cur ++ [f]) (max bottom (f.y + f.h)) hsort' ?_
      intro a ha
      rcases List.mem_append.1 ha with ha' | ha'
      · exact le_trans (hcur a ha') (le_max_left _ _)
      · simp at ha'; simp [ha']

/-- `cluster_column_blocks` covers exactly the (sorted) input blocks. -/
theorem cluster_join (thr : ℚ) (l : List Block) :
    (cluster_column_blocks thr l).flatten = sortByY l := by
  unfold cluster_column_blocks
  cases h : sortByY l with
  | nil => simp
  | cons f rest => rw [clusterWalk_join]; simp

/-- The cards produced by `cluster_column_blocks` are pairwise separated. -/
theorem cluster_sep (thr : ℚ) (l : List Block) :
    CardsSep thr (cluster_column_blocks thr l) := by
  unfold cluster_column_blocks
  cases h : sortByY l with
  | nil => simp [CardsSep]
  | cons f rest =>
    have hs : (sortByY l).Sorted byY := List.sorted_insertionSort byY l
    rw [h] at hs
    exact clusterWalk_sep thr rest [f] (f.y + f.h) hs.tail
      (by intro a ha; simp at ha; simp [ha])

/-- Members of a pairwise list are equal or related one way or the other. -/
theorem pairwise_mem_cases {α : Type} {R : α → α → Prop} :
    ∀ {l : List α}, l.Pairwise R → ∀ {a b : α}, a ∈ l → b ∈ l →
      a = b ∨ R a b ∨ R b a := by
  intro l hl
  induction hl with
  | nil => intro a b ha _; exact absurd ha (List.not_mem_nil a)
  | cons hx _ ih =>
    intro a b ha hb
    rcases List.mem_cons.1 ha with rfl | ha' <;> rcases List.mem_cons.1 hb with h | hb'
    · exact Or.inl h.symm
    · exact Or.inr (Or.inl (hx b hb'))
    · rcases h with rfl; exact Or.inr (Or.inr (hx a ha'))
    · exact ih ha' hb'

/-- C1 (amended, positive direction): with a positive threshold and
nonnegative heights, two fragments of the column whose vertical gap
`b.y - (a.y + a.h)` is below the threshold always land in the same card.
The threshold is `median_height * 1.2` in the source, positive whenever the
median height is. -/
theorem C1_amended_same_card (thr : ℚ) (blocks : List Block) (a b : Block)
    (hthr : 0 < thr) (hh : ∀ f ∈ blocks, 0 ≤ f.h)
    (ha : a ∈ blocks) (hb : b ∈ blocks) (hy : a.y ≤ b.y)
    (hgap : b.y - (a.y + a.h) < thr) :
    ∃ card ∈ cluster_column_blocks thr blocks, a ∈ card ∧ b ∈ card := by
  have haj : a ∈ (cluster_column_blocks thr blocks).flatten := by
    rw [cluster_join]; exact (List.mem_insertionSort byY).2 ha
  have hbj : b ∈ (cluster_column_blocks thr blocks).flatten := by
    rw [cluster_join]; exact (List.mem_insertionSort byY).2 hb
  rcases List.mem_flatten.1 haj with ⟨ca, hca, hac⟩
  rcases List.mem_flatten.1 hbj with ⟨cb, hcb, hbc⟩
  rcases pairwise_mem_cases (cluster_sep thr blocks) hca hcb with heq | hR | hR
  · exact ⟨ca, hca, hac, heq ▸ hbc⟩
  · exact absurd (hR a hac b hbc) (by linarith)
  · have := hR b hbc a hac
    have hbh := hh b hb
    exact absurd hy (by linarith)

unseal Rat.mul Rat.inv Rat.add Rat.sub in
/-- Witness for the amended C1 at a concrete column: two fragments with gap
5 below the threshold 12 share a card. -/
theorem C1_amended_same_card_witness :
    ∃ card ∈ cluster_column_blocks
        (yGapThreshold [Block.mk "u" 1 0 0 10 10, Block.mk "v" 1 0 15 10 10])
        [Block.mk "u" 1 0 0 10 10, Block.mk "v" 1 0 15 10 10],
      Block.mk "u" 1 0 0 10 10 ∈ card ∧ Block.mk "v" 1 0 15 10 10 ∈ card :=
  C1_amended_same_card _ _ _ _ (by decide)
    (by intro f hf; fin_cases hf <;> norm_num)
    (by decide) (by decide) (by decide) (by decide)

/-- The three fragments of the C1 counterexample: `cC` overlaps both `cA`
and `cB` vertically and bridges them into one card although the
`cA`–`cB` gap (90) is far above the threshold (12). -/
def bridgeBlocks : List Block :=
  [Block.mk "A" 1 0 0 10 10, Block.mk "C" 1 0 5 10 200, Block.mk "B" 1 0 100 10 10]

unseal Rat.mul Rat.inv Rat.add Rat.sub in
/-- C1 (counterexample): two fragments of one column whose vertical gap is at
or above `median_height * 1.2` can still end up in the same card — an
intervening tall fragment keeps the running bottom close to the next top, so
the claimed "always in different cards" direction is false. -/
theorem C1_counterexample :
    yGapThreshold bridgeBlocks ≤
      (Block.mk "B" 1 0 100 10 10).y -
        ((Block.mk "A" 1 0 0 10 10).y + (Block.mk "A" 1 0 0 10 10).h) ∧
    ∃ card ∈ cluster_column_blocks (yGapThreshold bridgeBlocks) bridgeBlocks,
      Block.mk "A" 1 0 0 10 10 ∈ card ∧ Block.mk "B" 1 0 100 10 10 ∈ card := by
  constructor
  · decide
  · exact ⟨[Block.mk "A" 1 0 0 10 10, Block.mk "C" 1 0 5 10 200,
      Block.mk "B" 1 0 100 10 10], by decide, by decide, by decide⟩

/-! ## Empty input (C8) and the subtotal/total slip (C3) -/

unseal Rat.mul Rat.inv Rat.add Rat.sub in
/-- C8: zero fragments produce a layout with no columns, no rows and empty
text, and a parsed receipt with every field absent and no items; both
functions are total, so no exception can occur. -/
theorem C8_empty_input :
    (analyze_layout_column_first []).column_count = 0 ∧
    (analyze_layout_column_first []).row_count = 0 ∧
    (analyze_layout_column_first []).raw_text = "" ∧
    (analyze_layout_column_first []).table_rows = [] ∧
    parse_receipt_text [] = ⟨none, [], none, none, none⟩ := by
  refine ⟨rfl, rfl, rfl, rfl, ?_⟩
  decide

unseal Rat.mul Rat.inv Rat.add Rat.sub in
/-- C3 (code evaluation at the failing input): the spacing rule
`([a-z])(Total)\b` (IGNORECASE) rewrites "Subtotal $10.00" to
"Sub total $10.00" before classification, so the lowercase text no longer
contains "subtotal"; the parser therefore sets `total = 10.00` and leaves
`subtotal` unset — the opposite of the claim. -/
theorem C3_code_evaluation :
    clean_ocr_text "Subtotal $10.00" = "Sub total $10.00" ∧
    parse_receipt_text [Block.mk "Subtotal $10.00" 1 0 0 100 20] =
      ⟨none, [], none, none, some 10⟩ := by
  constructor
  · decide
  · decide

/-! ## Idempotence of cleaning (C4) -/

unseal Rat.mul Rat.inv Rat.add Rat.sub in
/-- C4 (counterexample): cleaning is not idempotent.  The ampersand rule is a
non-overlapping left-to-right substitution, so on "a&b&c" one pass spaces only
the first ampersand ("a & b&c") and a second pass still changes the result
("a & b & c"). -/
theorem C4_counterexample :
    clean_ocr_text (clean_ocr_text "a&b&c") ≠ clean_ocr_text "a&b&c" := by
  decide

/-- C4 (amended): cleaning is idempotent only on strings it already leaves
unchanged; in general a second pass can keep splitting chained glued tokens
(ampersand chains such as "a&b&c", glued "...total" chains), so the universal
`clean(clean(x)) = clean(x)` fails. -/
theorem C4_amended_fixed_point (s : String) (h : clean_ocr_text s = s) :
    clean_ocr_text (clean_ocr_text s) = clean_ocr_text s := by
  simp only [h]

unseal Rat.mul Rat.inv Rat.add Rat.sub in
/-- Witness for the amended C4 at a concrete fixed point. -/
theorem C4_amended_fixed_point_witness :
    clean_ocr_text (clean_ocr_text "Milk $3.50") = clean_ocr_text "Milk $3.50" :=
  C4_amended_fixed_point "Milk $3.50" (by decide)

/-! ## Column assignment is a partition (C9) -/

/-- The assignment loop returns its accumulator or an index of a boundary. -/
theorem colIdxAux_cases (bx : ℚ) :
    ∀ (l : List ℤ) (i acc : Nat),
      colIdxAux bx l i acc = acc ∨ ∃ j, j < l.length ∧ colIdxAux bx l i acc = i + j := by
  intro l
  induction l with
  | nil => intro i acc; exact Or.inl rfl
  | cons c rest ih =>
    intro i acc
    rw [colIdxAux]
    rcases ih (i + 1) (if (c : ℚ) - 50 ≤ bx then i else acc) with h | ⟨j, hj, h⟩
    · rw [h]
      by_cases hc : (c : ℚ) - 50 ≤ bx
      · rw [if_pos hc]; exact Or.inr ⟨0, Nat.succ_pos _, by omega⟩
      · rw [if_neg hc]; exact Or.inl rfl
    · exact Or.inr ⟨j + 1, by simpa using Nat.succ_lt_succ hj, by omega⟩

/-- There is always at least one column boundary. -/
theorem numCols_pos (blocks : List Block) : 0 < numCols blocks := by
  unfold numCols colBoundaries sortInt
  rw [List.length_insertionSort]
  cases hxs : allXStarts blocks <;> simp

/-- Every block's assigned column index is in range. -/
theorem colIdxOf_lt (blocks : List Block) (b : Block) :
    colIdxOf blocks b < numCols blocks := by
  unfold colIdxOf
  rcases colIdxAux_cases b.x (colBoundaries blocks) 0 0 with h | ⟨j, hj, h⟩
  · rw [h]; exact numCols_pos blocks
  · rw [h]; simpa [numCols] using hj

/-- Membership in a column list is membership in the input with that index. -/
theorem mem_columnBlocks_iff (blocks : List Block) (b : Block) (i : Nat) :
    b ∈ columnBlocks blocks i ↔ b ∈ blocks ∧ colIdxOf blocks b = i := by
  simp [columnBlocks, List.mem_filter]

/-- Summing the sizes of the fibers of an in-range index map gives the size
of the list. -/
theorem sum_length_filter_eq {α : Type} (f : α → Nat) (n : Nat) :
    ∀ l : List α, (∀ x ∈ l, f x < n) →
      (∑ i in Finset.range n, (l.filter (fun x => f x = i)).length) = l.length := by
  intro l
  induction l with
  | nil => simp
  | cons a t ih =>
    intro h
    have ht : ∀ x ∈ t, f x < n := fun x hx => h x (List.mem_cons_of_mem a hx)
    have ha : f a < n := h a (List.mem_cons_self a t)
    have hfil : ∀ i : Nat, ((a :: t).filter (fun x => f x = i)).length
        = (if f a = i then 1 else 0) + (t.filter (fun x => f x = i)).length := by
      intro i
      by_cases hai : f a = i
      · simp [List.filter_cons, hai]; omega
      · simp [List.filter_cons, hai]
    simp only [hfil]
    rw [Finset.sum_add_distrib, ih ht]
    have : (∑ i in Finset.range n, if f a = i then 1 else 0) = 1 := by
      rw [Finset.sum_ite_eq]
      simp [Finset.mem_range.2 ha]
    rw [this]
    simp [List.length_cons]
    omega

/-- C9: column assignment partitions the input.  Every fragment receives
exactly one column index in `[0, column_count)` (the accumulator starting at
0 guarantees assignment even if no boundary passes the tolerance test), the
column lists contain exactly the fragments with that index, and the column
sizes add up to the input size. -/
theorem C9_column_partition (blocks : List Block) :
    (∀ b ∈ blocks, colIdxOf blocks b < numCols blocks) ∧
    (∀ (b : Block) (i : Nat),
      b ∈ columnBlocks blocks i ↔ b ∈ blocks ∧ colIdxOf blocks b = i) ∧
    (∑ i in Finset.range (numCols blocks), (columnBlocks blocks i).length) =
      blocks.length := by
  refine ⟨fun b _ => colIdxOf_lt blocks b, mem_columnBlocks_iff blocks, ?_⟩
  exact sum_length_filter_eq _ _ blocks (fun b _ => colIdxOf_lt blocks b)

/-- Two-column sample input shared by several witnesses. -/
def twoColBlocks : List Block :=
  [Block.mk "L1" 1 0 0 50 20, Block.mk "R1" 1 500 0 50 20,
   Block.mk "L2" 1 0 200 50 20, Block.mk "R2" 1 500 200 50 20]

unseal Rat.mul Rat.inv Rat.add Rat.sub in
/-- Witness for C9 at the two-column sample. -/
theorem C9_column_partition_witness :
    colIdxOf twoColBlocks (Block.mk "R1" 1 500 0 50 20) < numCols twoColBlocks ∧
    (Block.mk "R1" 1 500 0 50 20 ∈ columnBlocks twoColBlocks 1 ↔
      Block.mk "R1" 1 500 0 50 20 ∈ twoColBlocks ∧
        colIdxOf twoColBlocks (Block.mk "R1" 1 500 0 50 20) = 1) ∧
    (∑ i in Finset.range (numCols twoColBlocks),
        (columnBlocks twoColBlocks i).length) = twoColBlocks.length :=
  ⟨(C9_column_partition twoColBlocks).1 _ (by decide),
   (C9_column_partition twoColBlocks).2.1 _ 1,
   (C9_column_partition twoColBlocks).2.2⟩


/-! ## Row coverage (C6) -/

/-- A `foldl max` dominates the starting value and every element. -/
theorem foldl_max_le (l : List Nat) :
    ∀ init : Nat, (∀ x ∈ l, x ≤ l.foldl max init) ∧ init ≤ l.foldl max init := by
  induction l with
  | nil => intro init; exact ⟨by simp, le_refl _⟩
  | cons a t ih =>
    intro init
    constructor
    · intro x hx
      rcases List.mem_cons.1 hx with rfl | hx'
      · exact le_trans (le_max_right init x) (ih (max init x)).2
      · exact (ih (max init a)).1 x hx'
    · exact le_trans (le_max_left init a) (ih (max init a)).2

/-- A `foldl max` is the starting value or one of the elements. -/
theorem foldl_max_cases (l : List Nat) :
    ∀ init : Nat, l.foldl max init = init ∨ l.foldl max init ∈ l := by
  induction l with
  | nil => intro init; exact Or.inl rfl
  | cons a t ih =>
    intro init
    rcases ih (max init a) with h | h
    · rw [List.foldl_cons, h]
      by_cases hia : init ≤ a
      · exact Or.inr (by rw [max_eq_right hia]; exact List.mem_cons_self a t)
      · exact Or.inl (max_eq_left (le_of_not_le hia))
    · exact Or.inr (List.mem_cons_of_mem a h)

/-- `numRows` as a fold of `max` over the card counts. -/
theorem numRows_eq_foldl (blocks : List Block) :
    numRows blocks =
      ((List.range (numCols blocks)).map
        (fun i => (cardsOf blocks i).length)).foldl max 0 := by
  rw [numRows, List.foldl_map]

/-- Every column's card count is at most `numRows`. -/
theorem le_numRows (blocks : List Block) :
    ∀ c < numCols blocks, (cardsOf blocks c).length ≤ numRows blocks := by
  intro c hc
  have hmem : (cardsOf blocks c).length ∈
      (List.range (numCols blocks)).map (fun i => (cardsOf blocks i).length) :=
    List.mem_map.2 ⟨c, List.mem_range.2 hc, rfl⟩
  have h := (foldl_max_le _ 0).1 _ hmem
  rwa [← numRows_eq_foldl] at h

/-- `numRows` is zero or attained by some column. -/
theorem numRows_cases (blocks : List Block) :
    numRows blocks = 0 ∨
      ∃ c < numCols blocks, (cardsOf blocks c).length = numRows blocks := by
  have h := foldl_max_cases
    ((List.range (numCols blocks)).map (fun i => (cardsOf blocks i).length)) 0
  rw [← numRows_eq_foldl] at h
  rcases h with h | h
  · exact Or.inl h
  · rcases List.mem_map.1 h with ⟨c, hc, hval⟩
    exact Or.inr ⟨c, List.mem_range.1 hc, hval⟩

/-- A row index beyond a column's card count yields the empty cell. -/
theorem cellText_of_le (cards : List (List Block)) (r : Nat)
    (h : cards.length ≤ r) : cellText cards r = "" := by
  unfold cellText
  rw [List.get?_eq_none.2 h]

/-- A row index beyond a column's card count yields confidence 0. -/
theorem cellConf_of_le (cards : List (List Block)) (r : Nat)
    (h : cards.length ≤ r) : cellConf cards r = 0 := by
  unfold cellConf
  rw [List.get?_eq_none.2 h]

/-- In-range table access: row `r` exists and its cell `c` carries
`cellText`/`cellConf` of column `c`. -/
theorem analyze_table_access (blocks : List Block) (hne : blocks ≠ [])
    (r c : Nat) (hr : r < numRows blocks) (hc : c < numCols blocks) :
    ∃ row, (analyze_layout_column_first blocks).table_rows.get? r = some row ∧
      row.cells.get? c = some (cellText (cardsOf blocks c) r) ∧
      row.confidences.get? c = some (cellConf (cardsOf blocks c) r) := by
  unfold analyze_layout_column_first
  rw [if_neg hne]
  refine ⟨TableRow.mk r (rowCells blocks r) (rowConfs blocks r), ?_, ?_, ?_⟩
  · rw [List.get?_map, List.get?_range hr]
    rfl
  · unfold rowCells
    rw [List.get?_map, List.get?_range hc]
    rfl
  · unfold rowConfs
    rw [List.get?_map, List.get?_range hc]
    rfl

/-- C6: for nonempty input, `row_count` is the maximum card count over the
columns (it dominates every column's count and is zero or attained), and any
in-range cell whose column has at most `r` cards is the empty string with
confidence 0 — the access is total, with no error and no wraparound. -/
theorem C6_row_coverage (blocks : List Block) (hne : blocks ≠ []) :
    (analyze_layout_column_first blocks).row_count = numRows blocks ∧
    (analyze_layout_column_first blocks).column_count = numCols blocks ∧
    (∀ c < numCols blocks, (cardsOf blocks c).length ≤ numRows blocks) ∧
    (numRows blocks = 0 ∨
      ∃ c < numCols blocks, (cardsOf blocks c).length = numRows blocks) ∧
    (∀ r c, r < numRows blocks → c < numCols blocks →
      (cardsOf blocks c).length ≤ r →
      ∃ row, (analyze_layout_column_first blocks).table_rows.get? r = some row ∧
        row.cells.get? c = some "" ∧ row.confidences.get? c = some 0) := by
  refine ⟨?_, ?_, le_numRows blocks, numRows_cases blocks, ?_⟩
  · unfold analyze_layout_column_first
    rw [if_neg hne]
  · unfold analyze_layout_column_first
    rw [if_neg hne]
  · intro r c hr hc hcards
    rcases analyze_table_access blocks hne r c hr hc with ⟨row, h1, h2, h3⟩
    rw [cellText_of_le _ _ hcards] at h2
    rw [cellConf_of_le _ _ hcards] at h3
    exact ⟨row, h1, h2, h3⟩

/-- Uneven sample: the left column has three cards, the right column two. -/
def unevenBlocks : List Block :=
  [Block.mk "L1" 1 0 0 50 20, Block.mk "R1" 1 500 0 50 20,
   Block.mk "L2" 1 0 200 50 20, Block.mk "R2" 1 500 200 50 20,
   Block.mk "L3" 1 0 400 50 20]

unseal Rat.mul Rat.inv Rat.add Rat.sub in
/-- Witness for C6 at the uneven sample: row 2, column 1 is the empty cell. -/
theorem C6_row_coverage_witness :
    ∃ row, (analyze_layout_column_first unevenBlocks).table_rows.get? 2 = some row ∧
      row.cells.get? 1 = some "" ∧ row.confidences.get? 1 = some 0 :=
  (C6_row_coverage unevenBlocks (by decide)).2.2.2.2 2 1
    (by decide) (by decide) (by decide)


/-! ## Column detection (C2) -/

/-- Gap ends selected from consecutive pairs form a sublist of the tail. -/
theorem filterMap_zip_tail_sublist {α : Type} (P : α × α → Prop) [DecidablePred P] :
    ∀ xs : List α,
      (((xs.zip xs.tail).filterMap
        (fun p => if P p then some p.2 else none)).Sublist xs.tail)
  | [] => by simp
  | [x] => by simp
  | x :: y :: xs => by
    have ih := filterMap_zip_tail_sublist P (y :: xs)
    simp only [List.tail_cons] at ih ⊢
    rw [List.zip_cons_cons, List.filterMap_cons]
    by_cases hP : P (x, y)
    · rw [if_pos hP]
      exact List.Sublist.cons₂ y ih
    · rw [if_neg hP]
      exact List.Sublist.cons y ih

/-- The distinct x-starts are sorted. -/
theorem allXStarts_sorted (blocks : List Block) :
    (allXStarts blocks).Sorted (· ≤ ·) :=
  List.sorted_insertionSort _ _

/-- The distinct x-starts have no duplicates. -/
theorem allXStarts_nodup (blocks : List Block) : (allXStarts blocks).Nodup :=
  ((List.perm_insertionSort _ _).nodup_iff).2 (List.nodup_dedup _)

/-- Membership in the x-start list. -/
theorem mem_allXStarts (blocks : List Block) (b : Block) (hb : b ∈ blocks) :
    pyInt b.x ∈ allXStarts blocks := by
  unfold allXStarts sortInt
  rw [List.mem_insertionSort]
  exact List.mem_dedup.2 (List.mem_map.2 ⟨b, hb, rfl⟩)

/-- Explicit form of the boundary list: the final sort is the identity
because the selected gap ends are already an ascending sublist above the
first x-start. -/
theorem colBoundaries_eq (blocks : List Block) (x : ℤ) (tl : List ℤ)
    (hxs : allXStarts blocks = x :: tl) :
    colBoundaries blocks =
      x :: ((x :: tl).zip tl).filterMap
        (fun p => if gapThreshold blocks ≤ ((p.2 - p.1 : ℤ) : ℚ) then some p.2
          else none) := by
  unfold colBoundaries sortInt
  rw [hxs]
  simp only [List.tail_cons, List.singleton_append]
  apply List.Sorted.insertionSort_eq
  have hsub : (((x :: tl).zip tl).filterMap
      (fun p => if gapThreshold blocks ≤ ((p.2 - p.1 : ℤ) : ℚ) then some p.2
        else none)).Sublist tl := by
    have := filterMap_zip_tail_sublist
      (fun p : ℤ × ℤ => gapThreshold blocks ≤ ((p.2 - p.1 : ℤ) : ℚ)) (x :: tl)
    simpa using this
  have hsorted : (x :: tl).Sorted (· ≤ ·) := by
    rw [← hxs]; exact allXStarts_sorted blocks
  exact List.sorted_cons.2
    ⟨fun y hy => List.rel_of_sorted_cons hsorted y (hsub.mem hy),
     hsorted.tail.sublist hsub⟩

/-- Junction form of the consecutive pairs of a concatenation. -/
theorem zip_tail_append_int :
    ∀ (a b : List ℤ), a ≠ [] → b ≠ [] →
      (a ++ b).zip (a ++ b).tail =
        a.zip a.tail ++ (a.getLastD 0, b.headD 0) :: b.zip b.tail := by
  intro a
  induction a with
  | nil => intro b h; cases h rfl
  | cons u a ih =>
    intro b _ hb
    cases a with
    | nil =>
      cases b with
      | nil => cases hb rfl
      | cons v bs => simp
    | cons v as =>
      have ihv := ih b (by simp) hb
      have h1 : (u :: v :: as) ++ b = u :: ((v :: as) ++ b) := rfl
      have h2 : ((u :: v :: as) ++ b).tail = (v :: as) ++ b := rfl
      rw [h2, h1]
      have h3 : (v :: as) ++ b = v :: (as ++ b) := rfl
      nth_rewrite 2 [h3]
      rw [List.zip_cons_cons]
      have h4 : (as ++ b : List ℤ) = ((v :: as) ++ b).tail := rfl
      rw [h4, ihv]
      simp [List.getLastD_cons]

/-- The selection function for large gaps. -/
def selFun (thr : ℚ) (p : ℤ × ℤ) : Option ℤ :=
  if thr ≤ ((p.2 - p.1 : ℤ) : ℚ) then some p.2 else none

/-- The head default of a concatenation with nonempty left part. -/
theorem headD_append_left (a b : List ℤ) (ha : a ≠ []) :
    (a ++ b).headD 0 = a.headD 0 := by
  cases a with
  | nil => cases ha rfl
  | cons x xs => rfl

/-- With tight clusters (inner gaps below the threshold) separated by large
gaps, the number of selected gap ends is the number of clusters minus one. -/
theorem cluster_gap_count (thr : ℚ) :
    ∀ clusters : List (List ℤ), clusters ≠ [] →
      (∀ cl ∈ clusters, cl ≠ []) →
      (∀ cl ∈ clusters, ∀ p ∈ cl.zip cl.tail, ((p.2 - p.1 : ℤ) : ℚ) < thr) →
      List.Chain' (fun c d => thr ≤ ((d.headD 0 - c.getLastD 0 : ℤ) : ℚ)) clusters →
      ((clusters.flatten.zip clusters.flatten.tail).filterMap (selFun thr)).length
        = clusters.length - 1 := by
  intro clusters
  induction clusters with
  | nil => intro h; cases h rfl
  | cons c rest ih =>
    intro _ hne hsmall hchain
    cases rest with
    | nil =>
      simp only [List.flatten_cons, List.flatten_nil, List.append_nil,
        List.length_cons, List.length_nil]
      rw [List.filterMap_eq_nil_iff.2]
      · rfl
      · intro p hp
        have := hsmall c (by simp) p hp
        push_cast at this
        simp [selFun, not_le.2 this]
    | cons d rest' =>
      have hcne : c ≠ [] := hne c (by simp)
      have hdne : d ≠ [] := hne d (by simp)
      have hjne : (d :: rest').flatten ≠ [] := by
        rw [List.flatten_cons]
        cases d with
        | nil => cases hdne rfl
        | cons z zs => simp
      rw [List.flatten_cons, zip_tail_append_int c _ hcne hjne,
        List.filterMap_append, List.length_append]
      have hzero : ((c.zip c.tail).filterMap (selFun thr)).length = 0 := by
        rw [List.filterMap_eq_nil_iff.2, List.length_nil]
        intro p hp
        have := hsmall c (by simp) p hp
        push_cast at this
        simp [selFun, not_le.2 this]
      have hhead : ((d :: rest').flatten).headD 0 = d.headD 0 := by
        rw [List.flatten_cons]
        exact headD_append_left d rest'.flatten hdne
      have hjunct : selFun thr (c.getLastD 0, ((d :: rest').flatten).headD 0)
          = some (((d :: rest').flatten).headD 0) := by
        have hrel := (List.chain'_cons.1 hchain).1
        rw [hhead]
        simp only [selFun, if_pos hrel]
      have hrec := ih (by simp)
        (fun cl hcl => hne cl (List.mem_cons_of_mem c hcl))
        (fun cl hcl => hsmall cl (List.mem_cons_of_mem c hcl))
        (List.chain'_cons.1 hchain).2
      rw [List.filterMap_cons, hjunct]
      simp only [List.length_cons, hzero, hrec]
      omega

/-- C2: the gap threshold is `max(median_width * 1.5, 300)`; the boundary
list is exactly the smallest distinct x-start followed by every consecutive
gap end at or above the threshold; the first boundary is the smallest
observed (truncated) x-position; and when the distinct x-starts split into
`N` nonempty tight clusters (inner consecutive gaps below the threshold)
whose junction gaps are all at or above it, the detector reports exactly `N`
column bands. -/
theorem C2_column_detection (blocks : List Block) (x : ℤ) (tl : List ℤ)
    (hxs : allXStarts blocks = x :: tl) :
    gapThreshold blocks = max (medianWidth blocks * (3 / 2)) 300 ∧
    (∀ z : ℤ, z ∈ colBoundaries blocks ↔
      z = x ∨ ∃ p ∈ (x :: tl).zip tl,
        gapThreshold blocks ≤ ((p.2 - p.1 : ℤ) : ℚ) ∧ z = p.2) ∧
    ((colBoundaries blocks).head? = some x ∧ ∀ b ∈ blocks, x ≤ pyInt b.x) ∧
    (∀ clusters : List (List ℤ), clusters ≠ [] →
      (∀ cl ∈ clusters, cl ≠ []) →
      (∀ cl ∈ clusters, ∀ p ∈ cl.zip cl.tail,
        ((p.2 - p.1 : ℤ) : ℚ) < gapThreshold blocks) →
      List.Chain' (fun c d =>
        gapThreshold blocks ≤ ((d.headD 0 - c.getLastD 0 : ℤ) : ℚ)) clusters →
      clusters.flatten = allXStarts blocks →
      numCols blocks = clusters.length) := by
  refine ⟨rfl, ?_, ⟨?_, ?_⟩, ?_⟩
  · intro z
    rw [colBoundaries_eq blocks x tl hxs]
    simp only [List.mem_cons, List.mem_filterMap]
    constructor
    · rintro (rfl | ⟨p, hp, hfp⟩)
      · exact Or.inl rfl
      · by_cases hcond : gapThreshold blocks ≤ ((p.2 - p.1 : ℤ) : ℚ)
        · rw [if_pos hcond] at hfp
          exact Or.inr ⟨p, hp, hcond, (Option.some_inj.1 hfp).symm⟩
        · rw [if_neg hcond] at hfp
          cases hfp
    · rintro (rfl | ⟨p, hp, hcond, rfl⟩)
      · exact Or.inl rfl
      · exact Or.inr ⟨p, hp, by rw [if_pos hcond]⟩
  · rw [colBoundaries_eq blocks x tl hxs]; rfl
  · intro b hb
    have hmem := mem_allXStarts blocks b hb
    rw [hxs] at hmem
    rcases List.mem_cons.1 hmem with h | h
    · exact le_of_eq h.symm
    · have hsorted : (x :: tl).Sorted (· ≤ ·) := by
        rw [← hxs]; exact allXStarts_sorted blocks
      exact List.rel_of_sorted_cons hsorted _ h
  · intro clusters hcne hclne hsmall hchain hflat
    have hcount := cluster_gap_count (gapThreshold blocks) clusters hcne hclne
      hsmall hchain
    rw [hflat, hxs] at hcount
    have hlen : numCols blocks =
        1 + (((x :: tl).zip tl).filterMap
          (fun p => if gapThreshold blocks ≤ ((p.2 - p.1 : ℤ) : ℚ) then some p.2
            else none)).length := by
      unfold numCols
      rw [colBoundaries_eq blocks x tl hxs, List.length_cons]
      omega
    have hsel : (((x :: tl).zip tl).filterMap
        (fun p => if gapThreshold blocks ≤ ((p.2 - p.1 : ℤ) : ℚ) then some p.2
          else none)) =
        (((x :: tl).zip (x :: tl).tail).filterMap (selFun (gapThreshold blocks))) :=
      rfl
    rw [hsel] at hlen
    rw [hlen, hcount]
    cases clusters with
    | nil => cases hcne rfl
    | cons c rest =>
      rw [List.length_cons]
      omega

unseal Rat.mul Rat.inv Rat.add Rat.sub in
/-- Witness for C2 at the two-column sample: two tight clusters with gap 500
above the threshold 300 give exactly two bands. -/
theorem C2_column_detection_witness : numCols twoColBlocks = 2 :=
  (C2_column_detection twoColBlocks 0 [500] (by decide)).2.2.2 [[0], [500]]
    (by decide) (by decide) (by decide)
    (List.chain'_cons.2 ⟨by decide, List.chain'_singleton _⟩) (by decide)


/-! ## Price extraction (C5, C10) -/

/-- Spec-side: a dot followed by two digits begins this suffix. -/
def dotTwoDigits : List Char → Bool
  | c0 :: c1 :: c2 :: _ => (c0 == '.') && c1.isDigit && c2.isDigit
  | _ => false

/-- Spec-side, declarative match of the core `\d+\.\d{2}` at the start of
`t`: some split point `k ≥ 1` has only digits before it and a dot plus two
digits after — quantified over all split points, independently of the
greedy scanner. -/
def specCoreAt (t : List Char) : Prop :=
  ∃ k, k < t.length ∧ 1 ≤ k ∧ (∀ c ∈ t.take k, c.isDigit) ∧ dotTwoDigits (t.drop k)

/-- Spec-side match of `\$?\d+\.\d{2}` at position `i` of `s`. -/
def specPriceAt (s : List Char) (i : Nat) : Prop :=
  specCoreAt (s.drop i) ∨ ((s.drop i).head? = some '$' ∧ specCoreAt (s.drop (i + 1)))

/-- Unfolding of `dotTwoDigits`. -/
theorem dotTwoDigits_iff (u : List Char) :
    dotTwoDigits u = true ↔
      ∃ f1 f2 rest, u = '.' :: f1 :: f2 :: rest ∧ f1.isDigit ∧ f2.isDigit := by
  rcases u with _ | ⟨c0, _ | ⟨c1, _ | ⟨c2, rest⟩⟩⟩ <;> simp [dotTwoDigits]
  constructor
  · rintro ⟨⟨h0, h1⟩, h2⟩
    exact ⟨c1, c2, ⟨h0, rfl, rfl⟩, h1, h2⟩
  · rintro ⟨f1, f2, ⟨h0, rfl, rfl⟩, h1, h2⟩
    exact ⟨⟨h0, h1⟩, h2⟩

/-- The digit run has exactly length `k` when the first `k` characters are
digits and the character at `k` (if any) is not. -/
theorem takeWhile_length_eq (p : Char → Bool) :
    ∀ (t : List Char) (k : Nat), k ≤ t.length →
      (∀ c ∈ t.take k, p c) →
      (∀ c, (t.drop k).head? = some c → ¬ p c) →
      (t.takeWhile p).length = k := by
  intro t
  induction t with
  | nil =>
    intro k hk _ _
    simp at hk
    simp [hk]
  | cons c r ih =>
    intro k hk hall hstop
    cases k with
    | zero =>
      have hc := hstop c (by simp)
      simp [List.takeWhile_cons, hc]
    | succ k' =>
      have hc : p c := hall c (by simp)
      rw [List.takeWhile_cons, if_pos hc]
      have := ih k' (by simpa using hk)
        (fun d hd => hall d (by simp [hd]))
        (fun d hd => hstop d (by simpa using hd))
      simp [this]

/-- The maximal digit run decomposes the input. -/
theorem takeWhile_decomp (p : Char → Bool) (t : List Char) :
    t = t.takeWhile p ++ t.drop (t.takeWhile p).length := by
  rcases List.takeWhile_prefix (l := t) (p := p) with ⟨u, hu⟩
  have h2 := congrArg (List.drop (t.takeWhile p).length) hu
  rw [List.drop_left] at h2
  rw [← h2]
  exact hu.symm

/-- Characterization of a successful core match. -/
theorem priceCore_eq_some (t m : List Char) (h : priceCore t = some m) :
    ∃ ds f1 f2 rest, ds ≠ [] ∧ (∀ c ∈ ds, c.isDigit) ∧ f1.isDigit ∧ f2.isDigit ∧
      m = ds ++ ['.', f1, f2] ∧ t = ds ++ '.' :: f1 :: f2 :: rest := by
  unfold priceCore at h
  split at h
  · cases h
  · rename_i hds
    split at h
    · rename_i c0 c1 c2 tail heq
      split at h
      · rename_i hcond
        obtain ⟨rfl, h1, h2⟩ := hcond
        refine ⟨t.takeWhile Char.isDigit, c1, c2, tail, hds,
          fun c hc => List.mem_takeWhile_imp hc, h1, h2,
          (Option.some_inj.1 h).symm, ?_⟩
        conv_lhs => rw [takeWhile_decomp Char.isDigit t]
        rw [heq]
      · cases h
    · cases h

/-- The scanner matches the core exactly when the declarative pattern does. -/
theorem priceCore_isSome_iff (t : List Char) :
    (priceCore t).isSome ↔ specCoreAt t := by
  constructor
  · intro h
    rcases Option.isSome_iff_exists.1 h with ⟨m, hm⟩
    rcases priceCore_eq_some t m hm with ⟨ds, f1, f2, rest, hne, hall, h1, h2, _, ht⟩
    refine ⟨ds.length, ?_, List.length_pos.2 hne, ?_, ?_⟩
    · rw [ht]; simp
    · intro c hc
      apply hall
      rw [ht, List.take_left] at hc
      exact hc
    · rw [ht, List.drop_left]
      simp [dotTwoDigits, h1, h2]
  · rintro ⟨k, hk, hk1, hall, hdot⟩
    rcases (dotTwoDigits_iff _).1 hdot with ⟨f1, f2, rest, hdrop, h1, h2⟩
    have hlen : (t.takeWhile Char.isDigit).length = k := by
      apply takeWhile_length_eq Char.isDigit t k (le_of_lt hk) hall
      intro c hc
      rw [hdrop] at hc
      simp at hc
      subst hc
      decide
    have hne : t.takeWhile Char.isDigit ≠ [] := by
      intro h0
      rw [h0] at hlen
      simp at hlen
      omega
    have hpc : (priceCore t) = some (t.takeWhile Char.isDigit ++ ['.', f1, f2]) := by
      unfold priceCore
      rw [if_neg hne, hlen, hdrop]
      simp [h1, h2]
    simp [hpc]

/-- Shape of a successful `priceMatchHere`. -/
theorem priceMatchHere_some_shape (s m : List Char) (h : priceMatchHere s = some m) :
    ∃ ds f1 f2 rest, ds ≠ [] ∧ (∀ c ∈ ds, c.isDigit) ∧ f1.isDigit ∧ f2.isDigit ∧
      ((m = ds ++ ['.', f1, f2] ∧ s = ds ++ '.' :: f1 :: f2 :: rest) ∨
       (m = '$' :: (ds ++ ['.', f1, f2]) ∧
        s = '$' :: (ds ++ '.' :: f1 :: f2 :: rest))) := by
  cases s with
  | nil => cases h
  | cons c t =>
    by_cases hc : c = '$'
    · subst hc
      rw [priceMatchHere, if_pos rfl] at h
      rcases Option.map_eq_some'.1 h with ⟨m0, hm0, rfl⟩
      rcases priceCore_eq_some t m0 hm0 with ⟨ds, f1, f2, rest, hne, hall, h1, h2, rfl, ht⟩
      exact ⟨ds, f1, f2, rest, hne, hall, h1, h2, Or.inr ⟨rfl, by rw [ht]⟩⟩
    · rw [priceMatchHere, if_neg hc] at h
      rcases priceCore_eq_some _ _ h with ⟨ds, f1, f2, rest, hne, hall, h1, h2, rfl, ht⟩
      exact ⟨ds, f1, f2, rest, hne, hall, h1, h2, Or.inl ⟨rfl, ht⟩⟩

/-- `priceMatchHere` succeeds exactly when the spec pattern matches at 0. -/
theorem priceMatchHere_isSome_iff (s : List Char) :
    (priceMatchHere s).isSome ↔ specPriceAt s 0 := by
  cases s with
  | nil =>
    unfold priceMatchHere specPriceAt specCoreAt
    simp
  | cons c t =>
    by_cases hc : c = '$'
    · subst hc
      rw [priceMatchHere, if_pos rfl]
      have hmap : (Option.map (fun m => '$' :: m) (priceCore t)).isSome
          = (priceCore t).isSome := by
        cases priceCore t <;> rfl
      rw [hmap, priceCore_isSome_iff]
      unfold specPriceAt
      rw [List.drop_zero]
      have hdrop1 : ('$' :: t).drop 1 = t := rfl
      rw [hdrop1]
      constructor
      · intro h
        exact Or.inr ⟨rfl, h⟩
      · rintro (h | ⟨_, h⟩)
        · exfalso
          rcases h with ⟨k, hk, hk1, hall, _⟩
          rcases Nat.exists_eq_add_of_le hk1 with ⟨k', rfl⟩
          have := hall '$' (by
            rw [Nat.add_comm, List.take_succ_cons]
            exact List.mem_cons_self _ _)
          exact absurd this (by decide)
        · exact h
    · rw [priceMatchHere, if_neg hc, priceCore_isSome_iff]
      unfold specPriceAt
      rw [List.drop_zero]
      constructor
      · exact Or.inl
      · rintro (h | ⟨hhd, _⟩)
        · exact h
        · simp at hhd
          exact absurd hhd hc

/-- Shifting the spec match under a cons. -/
theorem specPriceAt_succ (c : Char) (r : List Char) (i : Nat) :
    specPriceAt (c :: r) (i + 1) ↔ specPriceAt r i := by
  unfold specPriceAt
  rw [List.drop_succ_cons, List.drop_succ_cons]

/-- No spec match in the empty string. -/
theorem specPriceAt_nil (i : Nat) : ¬ specPriceAt [] i := by
  unfold specPriceAt specCoreAt
  simp

/-- The search fails exactly when no position matches. -/
theorem priceSearch_none_iff (s : List Char) :
    priceSearch s = none ↔ ∀ i, ¬ specPriceAt s i := by
  induction s with
  | nil =>
    constructor
    · intro _ i
      exact specPriceAt_nil i
    · intro _
      rfl
  | cons c r ih =>
    unfold priceSearch
    cases hm : priceMatchHere (c :: r) with
    | some m =>
      constructor
      · intro h; cases h
      · intro hall
        exfalso
        apply hall 0
        rw [← priceMatchHere_isSome_iff, hm]
        rfl
    | none =>
      rw [ih]
      constructor
      · intro hr i
        cases i with
        | zero =>
          rw [← priceMatchHere_isSome_iff, hm]
          simp
        | succ j =>
          rw [specPriceAt_succ]
          exact hr j
      · intro hall j
        rw [← specPriceAt_succ c]
        exact hall (j + 1)

/-- A successful search is the leftmost scanner match. -/
theorem priceSearch_some_shape (s : List Char) :
    ∀ m, priceSearch s = some m →
      ∃ i, priceMatchHere (s.drop i) = some m ∧
        ∀ j, j < i → priceMatchHere (s.drop j) = none := by
  induction s with
  | nil => intro m h; cases h
  | cons c r ih =>
    intro m h
    unfold priceSearch at h
    cases hm : priceMatchHere (c :: r) with
    | some m' =>
      rw [hm] at h
      obtain rfl : m' = m := Option.some_inj.1 h
      exact ⟨0, by simpa using hm, fun j hj => absurd hj (Nat.not_lt_zero j)⟩
    | none =>
      rw [hm] at h
      rcases ih m h with ⟨i, h1, h2⟩
      refine ⟨i + 1, by simpa [List.drop_succ_cons] using h1, ?_⟩
      intro j hj
      cases j with
      | zero => simpa using hm
      | succ j' =>
        rw [List.drop_succ_cons]
        exact h2 j' (by omega)

/-- Spec match at `i` is the spec match at 0 of the dropped suffix. -/
theorem specPriceAt_drop (s : List Char) (i : Nat) :
    specPriceAt s i ↔ specPriceAt (s.drop i) 0 := by
  unfold specPriceAt
  rw [List.drop_zero, List.drop_drop]

/-- A character kept by the `$`/`,` strip. -/
theorem digit_kept (c : Char) (h : c.isDigit = true) :
    (decide (c ≠ '$') && decide (c ≠ ',')) = true := by
  have h1 : c ≠ '$' := by rintro rfl; exact absurd h (by decide)
  have h2 : c ≠ ',' := by rintro rfl; exact absurd h (by decide)
  simp [h1, h2]

/-- A digit run before a non-digit is the maximal digit run. -/
theorem takeWhile_append_digits (ds : List Char) (d : Char) (rest : List Char)
    (hall : ∀ c ∈ ds, Char.isDigit c) (hd : Char.isDigit d = false) :
    ((ds ++ d :: rest).takeWhile Char.isDigit = ds) := by
  induction ds with
  | nil => simp [List.takeWhile_cons, hd]
  | cons a as ih =>
    have ha : Char.isDigit a := hall a (by simp)
    rw [List.cons_append, List.takeWhile_cons, if_pos ha,
      ih (fun c hc => hall c (by simp [hc]))]

/-- `float()` on a stripped match value. -/
theorem floatOfStr_price (ds : List Char) (f1 f2 : Char) (hne : ds ≠ [])
    (hall : ∀ c ∈ ds, c.isDigit) (h1 : f1.isDigit) (h2 : f2.isDigit) :
    floatOfStr? (ds ++ ['.', f1, f2]) =
      some ((natOfDigits ds : ℚ) + (natOfDigits [f1, f2] : ℚ) / 100) := by
  have htw : ((ds ++ ['.', f1, f2]).takeWhile Char.isDigit) = ds :=
    takeWhile_append_digits ds '.' [f1, f2] hall (by decide)
  unfold floatOfStr?
  rw [htw, List.drop_left]
  split
  · rename_i heq
    exact absurd heq (by simp)
  · rename_i c rest heq
    obtain ⟨rfl, rfl⟩ : '.' = c ∧ ([f1, f2] : List Char) = rest := by
      injection heq with hc hrest
      exact ⟨hc, hrest⟩
    rw [if_pos ⟨rfl, by simp [h1, h2], Or.inl hne⟩]
    norm_num

/-- The strip keeps a core match unchanged and deletes a leading dollar. -/
theorem stripDollarComma_eq (ds : List Char) (f1 f2 : Char)
    (hall : ∀ c ∈ ds, c.isDigit) (h1 : f1.isDigit) (h2 : f2.isDigit) :
    stripDollarComma (ds ++ ['.', f1, f2]) = ds ++ ['.', f1, f2] ∧
    stripDollarComma ('$' :: (ds ++ ['.', f1, f2])) = ds ++ ['.', f1, f2] := by
  have hkeep : ∀ c ∈ ds ++ ['.', f1, f2],
      (fun c => decide (c ≠ '$') && decide (c ≠ ',')) c = true := by
    intro c hc
    rcases List.mem_append.1 hc with hc | hc
    · exact digit_kept c (hall c hc)
    · simp only [List.mem_cons, List.mem_singleton, List.not_mem_nil, or_false] at hc
      rcases hc with rfl | rfl | rfl
      · decide
      · exact digit_kept _ h1
      · exact digit_kept _ h2
  have hself : stripDollarComma (ds ++ ['.', f1, f2]) = ds ++ ['.', f1, f2] :=
    List.filter_eq_self.2 hkeep
  refine ⟨hself, ?_⟩
  unfold stripDollarComma at hself ⊢
  rw [List.filter_cons]
  have hdollar : (decide (('$' : Char) ≠ '$') && decide (('$' : Char) ≠ ',')) = false := by
    decide
  rw [hdollar]
  simpa using hself

/-- Workhorse: a scanner match always parses after the strip, with the
decimal value of its digits. -/
theorem float_strip_of_matchHere (t m : List Char) (h : priceMatchHere t = some m) :
    ∃ ds f1 f2 rest, ds ≠ [] ∧ (∀ c ∈ ds, c.isDigit = true) ∧
      f1.isDigit ∧ f2.isDigit ∧
      floatOfStr? (stripDollarComma m) =
        some ((natOfDigits ds : ℚ) + (natOfDigits [f1, f2] : ℚ) / 100) ∧
      (t = ds ++ '.' :: f1 :: f2 :: rest ∨
       t = '$' :: (ds ++ '.' :: f1 :: f2 :: rest)) := by
  rcases priceMatchHere_some_shape t m h with
    ⟨ds, f1, f2, rest, hne, hall, h1, h2, hcase⟩
  rcases hcase with ⟨rfl, ht⟩ | ⟨rfl, ht⟩
  · exact ⟨ds, f1, f2, rest, hne, hall, h1, h2, by
      rw [(stripDollarComma_eq ds f1 f2 hall h1 h2).1,
        floatOfStr_price ds f1 f2 hne hall h1 h2], Or.inl ht⟩
  · exact ⟨ds, f1, f2, rest, hne, hall, h1, h2, by
      rw [(stripDollarComma_eq ds f1 f2 hall h1 h2).2,
        floatOfStr_price ds f1 f2 hne hall h1 h2], Or.inr ht⟩

/-- C5: `extract_price` returns the value of the first (leftmost) substring
matching `\$?\d+\.\d{2}` — the declarative pattern `specPriceAt` — with `$`
and `,` stripped before numeric parsing; it returns `none` exactly when no
position matches, and with two prices in the string only the leftmost match
is used. -/
theorem C5_extract_price_first_match (s : List Char) :
    (extract_price s = none ↔ ∀ i, ¬ specPriceAt s i) ∧
    (∀ v, extract_price s = some v →
      ∃ i, specPriceAt s i ∧ (∀ j, j < i → ¬ specPriceAt s j) ∧
        ∃ ds f1 f2 rest, ds ≠ [] ∧ (∀ c ∈ ds, c.isDigit) ∧
          f1.isDigit ∧ f2.isDigit ∧
          (s.drop i = ds ++ '.' :: f1 :: f2 :: rest ∨
           s.drop i = '$' :: (ds ++ '.' :: f1 :: f2 :: rest)) ∧
          v = (natOfDigits ds : ℚ) + (natOfDigits [f1, f2] : ℚ) / 100) := by
  constructor
  · unfold extract_price
    cases hs : priceSearch s with
    | none =>
      simp only [hs]
      simpa using (priceSearch_none_iff s).1 hs
    | some m =>
      simp only [hs]
      rcases priceSearch_some_shape s m hs with ⟨i, hi, _⟩
      rcases float_strip_of_matchHere _ m hi with
        ⟨ds, f1, f2, rest, _, _, _, _, hfloat, _⟩
      rw [hfloat]
      constructor
      · intro h; cases h
      · intro hall
        exfalso
        apply hall i
        rw [specPriceAt_drop, ← priceMatchHere_isSome_iff, hi]
        rfl
  · intro v hv
    unfold extract_price at hv
    cases hs : priceSearch s with
    | none => rw [hs] at hv; simp at hv
    | some m =>
      simp only [hs] at hv
      rcases priceSearch_some_shape s m hs with ⟨i, hi, hmin⟩
      rcases float_strip_of_matchHere _ m hi with
        ⟨ds, f1, f2, rest, hne, hall, h1, h2, hfloat, hshape⟩
      refine ⟨i, ?_, ?_, ds, f1, f2, rest, hne, hall, h1, h2, hshape, ?_⟩
      · rw [specPriceAt_drop, ← priceMatchHere_isSome_iff, hi]
        rfl
      · intro j hj
        rw [specPriceAt_drop, ← priceMatchHere_isSome_iff, hmin j hj]
        simp
      · rw [hfloat] at hv
        exact (Option.some_inj.1 hv).symm

unseal Rat.mul Rat.inv Rat.add Rat.sub in
/-- Witness for C5 on a string with two prices: the leftmost ($12.34) wins. -/
theorem C5_extract_price_first_match_witness :
    ∃ i, specPriceAt "ab$12.34cd$5.99".data i ∧
      (∀ j, j < i → ¬ specPriceAt "ab$12.34cd$5.99".data j) ∧
      ∃ ds f1 f2 rest, ds ≠ [] ∧ (∀ c ∈ ds, c.isDigit) ∧
        f1.isDigit ∧ f2.isDigit ∧
        ("ab$12.34cd$5.99".data.drop i = ds ++ '.' :: f1 :: f2 :: rest ∨
         "ab$12.34cd$5.99".data.drop i =
           '$' :: (ds ++ '.' :: f1 :: f2 :: rest)) ∧
        (617 / 50 : ℚ) = (natOfDigits ds : ℚ) + (natOfDigits [f1, f2] : ℚ) / 100 :=
  (C5_extract_price_first_match "ab$12.34cd$5.99".data).2 (617 / 50) (by decide)

/-- C10: the defensive ValueError branch of `extract_price` is unreachable —
whenever PRICE_PATTERN matches, the matched substring with `$` and `,`
stripped always parses as a number — so `extract_price` returns a value
exactly when the pattern matches. -/
theorem C10_no_value_error (s : List Char) :
    (∀ m, priceSearch s = some m → floatOfStr? (stripDollarComma m) ≠ none) ∧
    ((extract_price s).isSome ↔ (priceSearch s).isSome) := by
  have key : ∀ m, priceSearch s = some m →
      floatOfStr? (stripDollarComma m) ≠ none := by
    intro m hm
    rcases priceSearch_some_shape s m hm with ⟨i, hi, _⟩
    rcases float_strip_of_matchHere _ m hi with
      ⟨ds, f1, f2, rest, _, _, _, _, hfloat, _⟩
    rw [hfloat]
    exact Option.some_ne_none _
  refine ⟨key, ?_⟩
  unfold extract_price
  cases hs : priceSearch s with
  | none => simp [hs]
  | some m =>
    simp only [hs, Option.isSome_some, iff_true]
    rcases Option.ne_none_iff_exists'.1 (key m hs) with ⟨v, hv⟩
    rw [hv]
    rfl

unseal Rat.mul Rat.inv Rat.add Rat.sub in
/-- Witness for C10: the match "$12.34" parses after stripping. -/
theorem C10_no_value_error_witness :
    floatOfStr? (stripDollarComma "$12.34".data) ≠ none :=
  (C10_no_value_error "ab$12.34cd".data).1 "$12.34".data (by decide)


/-! ## Character runs: the price-relevant abstraction (towards C7)

`priceSearch` only inspects the characters `0`-`9`, `$` and `.`; every
cleaning pass rewrites the other characters (letters, spaces) around them.
`CRA` computes the maximal runs of price-relevant characters; each cleaning
pass is shown to preserve them, and the price search is shown to depend only
on them. -/

/-- Characters PRICE_PATTERN can consume. -/
def isC (c : Char) : Bool := c.isDigit || c == '$' || c == '.'

/-- Close the pending (reversed) run accumulator. -/
def flushAcc (acc : List Char) : List (List Char) :=
  if acc = [] then [] else [acc.reverse]

/-- Accumulator-passing computation of the maximal `isC` runs: returns the
closed runs and the pending (reversed) run. -/
def CRA : List Char → List Char → List (List Char) × List Char
  | [], acc => ([], acc)
  | c :: r, acc =>
    if isC c then CRA r (c :: acc)
    else (flushAcc acc ++ (CRA r []).1, (CRA r []).2)

/-- The maximal `isC` runs of a string. -/
def CRuns (s : List Char) : List (List Char) :=
  (CRA s []).1 ++ flushAcc (CRA s []).2

/-- `CRA` is compositional over append. -/
theorem CRA_append :
    ∀ (u y : List Char) (acc : List Char),
      CRA (u ++ y) acc =
        ((CRA u acc).1 ++ (CRA y (CRA u acc).2).1, (CRA y (CRA u acc).2).2) := by
  intro u
  induction u with
  | nil => intro y acc; simp [CRA]
  | cons c r ih =>
    intro y acc
    by_cases hc : isC c
    · rw [List.cons_append, CRA, if_pos hc, CRA, if_pos hc]
      exact ih y (c :: acc)
    · rw [List.cons_append, CRA, if_neg hc, CRA, if_neg hc]
      rw [ih y []]
      simp [List.append_assoc]

/-- A nonempty string of non-`isC` characters flushes the accumulator. -/
theorem CRA_nonC :
    ∀ (u : List Char), u ≠ [] → (∀ c ∈ u, isC c = false) →
      ∀ acc, CRA u acc = (flushAcc acc, []) := by
  intro u
  induction u with
  | nil => intro h; cases h rfl
  | cons c r ih =>
    intro _ hall acc
    have hc : isC c = false := hall c (by simp)
    rw [CRA, if_neg (by simp [hc])]
    cases hr : r with
    | nil => simp [CRA, flushAcc]
    | cons d r' =>
      rw [← hr, ih (by simp [hr]) (fun d hd => hall d (by simp [hd])) []]
      simp [flushAcc]

/-- A string of `isC` characters extends the accumulator. -/
theorem CRA_allC :
    ∀ (u : List Char), (∀ c ∈ u, isC c = true) →
      ∀ acc, CRA u acc = ([], u.reverse ++ acc) := by
  intro u
  induction u with
  | nil => intro _ acc; simp [CRA]
  | cons c r ih =>
    intro hall acc
    have hc : isC c = true := hall c (by simp)
    rw [CRA, if_pos hc, ih (fun d hd => hall d (by simp [hd]))]
    simp

/-- Unfolding for a non-`isC` head. -/
theorem CRA_cons_nonC (c : Char) (hc : isC c = false) (r : List Char) (acc : List Char) :
    CRA (c :: r) acc = (flushAcc acc ++ (CRA r []).1, (CRA r []).2) := by
  rw [CRA, if_neg (by simp [hc])]

/-- Unfolding for an `isC` head. -/
theorem CRA_cons_C (c : Char) (hc : isC c = true) (r : List Char) (acc : List Char) :
    CRA (c :: r) acc = CRA r (c :: acc) := by
  rw [CRA, if_pos hc]

/-- Inserting a space after a non-`isC` character preserves `CRA`. -/
theorem CRA_space_after_nonC (c : Char) (hc : isC c = false) (x : List Char) :
    ∀ acc, CRA (c :: ' ' :: x) acc = CRA (c :: x) acc := by
  intro acc
  rw [CRA_cons_nonC c hc, CRA_cons_nonC c hc,
    CRA_cons_nonC ' ' (by decide)]
  simp [flushAcc]

/-- Inserting a space between an `isC` character and a non-`isC` character
preserves `CRA`. -/
theorem CRA_space_after_C (c d : Char) (hc : isC c = true) (hd : isC d = false)
    (x : List Char) :
    ∀ acc, CRA (c :: ' ' :: d :: x) acc = CRA (c :: d :: x) acc := by
  intro acc
  rw [CRA_cons_C c hc, CRA_cons_C c hc, CRA_cons_nonC ' ' (by decide),
    CRA_cons_nonC d hd, CRA_cons_nonC d hd]
  simp [flushAcc]

/-- Step soundness for run preservation: a firing step consumes a chunk `u`
and emits a chunk with the same run structure. -/
def StepOkCRA (step : List Char → Option (List Char × List Char)) : Prop :=
  ∀ s e rest, step s = some (e, rest) →
    rest.length < s.length ∧
    ∃ u, s = u ++ rest ∧ ∀ acc, CRA e acc = CRA u acc

/-- Step soundness for `List.any p` preservation. -/
def StepOkAny (p : Char → Bool) (step : List Char → Option (List Char × List Char)) : Prop :=
  ∀ s e rest, step s = some (e, rest) →
    rest.length < s.length ∧
    ∃ u, s = u ++ rest ∧ e.any p = u.any p

/-- A scan whose steps preserve run structure preserves `CRA`. -/
theorem scanRewrite_CRA (step : List Char → Option (List Char × List Char))
    (hok : StepOkCRA step) :
    ∀ (fuel : Nat) (s : List Char), s.length ≤ fuel →
      ∀ acc, CRA (scanRewrite step fuel s) acc = CRA s acc := by
  intro fuel
  induction fuel with
  | zero => intro s _ acc; rfl
  | succ fuel ih =>
    intro s hs acc
    cases s with
    | nil => rfl
    | cons c r =>
      rw [scanRewrite]
      cases hstep : step (c :: r) with
      | none =>
        by_cases hc : isC c
        · rw [CRA_cons_C c hc, CRA_cons_C c hc]
          exact ih r (by simpa using hs) (c :: acc)
        · rw [CRA_cons_nonC c (by simpa using hc), CRA_cons_nonC c (by simpa using hc),
            ih r (by simpa using hs) []]
      | some pr =>
        rcases pr with ⟨e, rest⟩
        rcases hok (c :: r) e rest hstep with ⟨hlen, u, hdecomp, hcra⟩
        rw [CRA_append, hcra acc]
        have hrest : CRA (scanRewrite step fuel rest) (CRA u acc).2 =
            CRA rest (CRA u acc).2 := by
          apply ih
          omega
        rw [hrest, ← CRA_append, ← hdecomp]

/-- A scan whose steps preserve `any p` preserves `any p`. -/
theorem scanRewrite_any (p : Char → Bool)
    (step : List Char → Option (List Char × List Char)) (hok : StepOkAny p step) :
    ∀ (fuel : Nat) (s : List Char), s.length ≤ fuel →
      (scanRewrite step fuel s).any p = s.any p := by
  intro fuel
  induction fuel with
  | zero => intro s _; rfl
  | succ fuel ih =>
    intro s hs
    cases s with
    | nil => rfl
    | cons c r =>
      rw [scanRewrite]
      cases hstep : step (c :: r) with
      | none =>
        simp only [List.any_cons]
        rw [ih r (by simpa using hs)]
      | some pr =>
        rcases pr with ⟨e, rest⟩
        rcases hok (c :: r) e rest hstep with ⟨hlen, u, hdecomp, hany⟩
        rw [List.any_append, hany, ih rest (by omega), ← List.any_append, ← hdecomp]


/-! ## Character class facts -/

/-- Spaces and other Python whitespace are not price-relevant. -/
theorem ws_not_isC (c : Char) (h : isWsPy c = true) : isC c = false := by
  unfold isWsPy at h
  simp only [Bool.or_eq_true, decide_eq_true_eq, or_assoc] at h
  rcases h with rfl | rfl | rfl | rfl | rfl | rfl <;> decide

/-- A digit is price-relevant. -/
theorem digit_isC (c : Char) (h : c.isDigit = true) : isC c = true := by
  simp [isC, h]

/-- An alphabetic character is not price-relevant. -/
theorem alpha_not_isC (c : Char) (h : c.isAlpha = true) : isC c = false := by
  have hd : c.isDigit = false := by
    simp only [Char.isAlpha, Char.isUpper, Char.isLower, Char.isDigit, Bool.or_eq_true,
      Bool.and_eq_true, decide_eq_true_eq, UInt32.le_def, BitVec.le_def] at *
    simp only [Bool.and_eq_false_iff, decide_eq_false_iff_not, not_le] at *
    simp only [show ((48 : UInt32)).toBitVec.toNat = 48 from by decide,
      show ((57 : UInt32)).toBitVec.toNat = 57 from by decide,
      show ((65 : UInt32)).toBitVec.toNat = 65 from by decide,
      show ((90 : UInt32)).toBitVec.toNat = 90 from by decide,
      show ((97 : UInt32)).toBitVec.toNat = 97 from by decide,
      show ((122 : UInt32)).toBitVec.toNat = 122 from by decide] at *
    omega
  have h1 : (c == '$') = false := by
    by_cases hc : c = '$'
    · subst hc; exact absurd h (by decide)
    · exact beq_eq_false_iff_ne.2 hc
  have h2 : (c == '.') = false := by
    by_cases hc : c = '.'
    · subst hc; exact absurd h (by decide)
    · exact beq_eq_false_iff_ne.2 hc
  simp [isC, hd, h1, h2]

/-- Characters at code point 65 or above are not price-relevant. -/
theorem not_isC_of_ge65 (d : Char) (h : 65 ≤ d.toNat) : isC d = false := by
  have hd : d.isDigit = false := by
    simp only [Char.isDigit, Char.toNat, UInt32.toNat, UInt32.le_def, BitVec.le_def] at *
    simp only [Bool.and_eq_false_iff, decide_eq_false_iff_not, not_le]
    simp only [show ((48 : UInt32)).toBitVec.toNat = 48 from by decide,
      show ((57 : UInt32)).toBitVec.toNat = 57 from by decide]
    omega
  have h1 : (d == '$') = false := by
    by_cases hc : d = '$'
    · subst hc; exact absurd h (by decide)
    · exact beq_eq_false_iff_ne.2 hc
  have h2 : (d == '.') = false := by
    by_cases hc : d = '.'
    · subst hc; exact absurd h (by decide)
    · exact beq_eq_false_iff_ne.2 hc
  simp [isC, hd, h1, h2]

/-- Lower-casing reaches a lowercase letter only from a letter. -/
theorem toLower_cases (d : Char) :
    d.toLower = d ∨ (65 ≤ d.toNat ∧ d.toNat ≤ 90) := by
  by_cases h : 65 ≤ d.toNat ∧ d.toNat ≤ 90
  · exact Or.inr h
  · left
    show (if d.toNat ≥ 65 ∧ d.toNat ≤ 90 then Char.ofNat (d.toNat + 32) else d) = d
    exact if_neg h

/-- A character whose lower case is a lowercase letter is not
price-relevant. -/
theorem not_isC_of_toLower (d el : Char) (h : d.toLower = el) (hl : 97 ≤ el.toNat) :
    isC d = false := by
  rcases toLower_cases d with hd | ⟨h65, _⟩
  · rw [hd] at h
    subst h
    exact not_isC_of_ge65 d (by omega)
  · exact not_isC_of_ge65 d h65

/-- A case-insensitive word match pins the first character. -/
theorem startsCI_head (x : Char) (w t : List Char) (h : startsCI (x :: w) t = true) :
    ∃ d t', t = d :: t' ∧ d.toLower = x := by
  unfold startsCI at h
  rw [Bool.and_eq_true] at h
  obtain ⟨hlen, heq⟩ := h
  rw [decide_eq_true_eq] at hlen
  cases t with
  | nil => simp at hlen
  | cons d t' =>
    refine ⟨d, t', rfl, ?_⟩
    rw [beq_iff_eq] at heq
    rw [List.length_cons, List.take_succ_cons, List.map_cons] at heq
    exact (List.cons_eq_cons.1 heq).1

/-! ## The cleaning passes preserve the runs -/

/-- The projection tested by the emptiness argument: a character that
survives `strip`. -/
def nonWs (c : Char) : Bool := !isWsPy c

theorem nonWs_space : nonWs ' ' = false := by decide

/-- What each OCR_CORRECTIONS entry satisfies: it is an identity entry, or
both sides are nonempty, price-irrelevant, and agree on `any nonWs`. -/
def goodPair (pr : List Char × List Char) : Prop :=
  pr.1 = pr.2 ∨
    (pr.1 ≠ [] ∧ pr.2 ≠ [] ∧ (∀ c ∈ pr.1, isC c = false) ∧
      (∀ c ∈ pr.2, isC c = false) ∧ pr.1.any nonWs = pr.2.any nonWs)

instance goodPairDec : DecidablePred goodPair := fun pr => by
  unfold goodPair
  infer_instance

/-- All correction entries are good. -/
theorem corrections_good : ∀ pr ∈ ocrCorrections, goodPair pr := by decide

/-- A good replacement step preserves runs. -/
theorem replStep_okCRA (pat rep : List Char) (hgood : goodPair (pat, rep)) :
    StepOkCRA (replStep pat rep) := by
  intro s e rest hstep
  unfold replStep at hstep
  split at hstep
  · rename_i hcond
    obtain ⟨hne, hpre⟩ := hcond
    obtain ⟨rfl, rfl⟩ : rep = e ∧ s.drop pat.length = rest := by
      injection hstep with h1
      injection h1 with h2 h3
      exact ⟨h2, h3⟩
    rcases List.isPrefixOf_iff_prefix.1 hpre with ⟨t, ht⟩
    have hdrop : s.drop pat.length = t := by
      rw [← ht, List.drop_left]
    have hs : s = pat ++ s.drop pat.length := by rw [hdrop, ht]
    have hplen : 0 < pat.length := List.length_pos.2 hne
    refine ⟨?_, pat, hs, ?_⟩
    · rw [hdrop, ← ht, List.length_append]
      omega
    · rcases hgood with heq | ⟨hp, hr, hcp, hcr, _⟩
      · have heq2 : pat = rep := heq
        intro acc
        rw [heq2]
      · intro acc
        rw [CRA_nonC rep hr hcr acc, CRA_nonC pat hp hcp acc]
  · cases hstep

/-- A good replacement step preserves `any nonWs`. -/
theorem replStep_okAny (pat rep : List Char) (hgood : goodPair (pat, rep)) :
    StepOkAny nonWs (replStep pat rep) := by
  intro s e rest hstep
  unfold replStep at hstep
  split at hstep
  · rename_i hcond
    obtain ⟨hne, hpre⟩ := hcond
    obtain ⟨rfl, rfl⟩ : rep = e ∧ s.drop pat.length = rest := by
      injection hstep with h1
      injection h1 with h2 h3
      exact ⟨h2, h3⟩
    rcases List.isPrefixOf_iff_prefix.1 hpre with ⟨t, ht⟩
    have hdrop : s.drop pat.length = t := by
      rw [← ht, List.drop_left]
    have hs : s = pat ++ s.drop pat.length := by rw [hdrop, ht]
    have hplen : 0 < pat.length := List.length_pos.2 hne
    refine ⟨?_, pat, hs, ?_⟩
    · rw [hdrop, ← ht, List.length_append]
      omega
    · rcases hgood with heq | ⟨_, _, _, _, hany⟩
      · have heq2 : pat = rep := heq
        rw [heq2]
      · exact hany.symm
  · cases hstep


/-- Obligations of a firing digit-word step: the consumed chunk starts with a
digit and continues with a letter, so the inserted space sits at a run
boundary. -/
theorem digit_word_obl (c x : Char) (w r : List Char) (hdig : c.isDigit = true)
    (hx : 97 ≤ x.toNat) (hci : startsCI (x :: w) r = true) :
    (r.drop (x :: w).length).length < (c :: r).length ∧
      ∃ u, c :: r = u ++ r.drop (x :: w).length ∧
        ∀ acc, CRA (c :: ' ' :: r.take (x :: w).length) acc = CRA u acc := by
  rcases startsCI_head x w r hci with ⟨d, t', rfl, htl⟩
  have hdC : isC d = false := not_isC_of_toLower d x htl hx
  constructor
  · simp only [List.length_cons, List.length_drop]
    omega
  · refine ⟨c :: (d :: t').take (x :: w).length, ?_, ?_⟩
    · rw [List.cons_append, List.take_append_drop]
    · rw [List.length_cons, List.take_succ_cons]
      exact CRA_space_after_C c d (digit_isC c hdig) hdC (t'.take w.length)

/-- The digit-word spacing steps preserve runs. -/
theorem digitWordStep_okCRA (x2 x1 : Char) (t2 t1 : List Char)
    (h2 : 97 ≤ x2.toNat) (h1 : 97 ≤ x1.toNat) :
    StepOkCRA (digitWordStep (x2 :: t2) (x1 :: t1)) := by
  intro s e rest hstep
  unfold digitWordStep at hstep
  split at hstep
  · cases hstep
  · rename_i c r
    split at hstep
    · rename_i hdig
      split at hstep
      · rename_i hcond
        obtain ⟨rfl, rfl⟩ : c :: ' ' :: r.take (x2 :: t2).length = e ∧
            r.drop (x2 :: t2).length = rest := by
          injection hstep with hh
          injection hh with hh1 hh2
          exact ⟨hh1, hh2⟩
        exact digit_word_obl c x2 t2 r hdig h2 hcond.1
      · split at hstep
        · rename_i hcond
          obtain ⟨rfl, rfl⟩ : c :: ' ' :: r.take (x1 :: t1).length = e ∧
              r.drop (x1 :: t1).length = rest := by
            injection hstep with hh
            injection hh with hh1 hh2
            exact ⟨hh1, hh2⟩
          exact digit_word_obl c x1 t1 r hdig h1 hcond.1
        · cases hstep
    · cases hstep

/-- The digit-word spacing steps preserve the non-whitespace test. -/
theorem digitWordStep_okAny (w2 w1 : List Char) : StepOkAny nonWs (digitWordStep w2 w1) := by
  intro s e rest hstep
  unfold digitWordStep at hstep
  split at hstep
  · cases hstep
  · rename_i c r
    split at hstep
    · split at hstep
      · obtain ⟨rfl, rfl⟩ : c :: ' ' :: r.take w2.length = e ∧ r.drop w2.length = rest := by
          injection hstep with hh
          injection hh with hh1 hh2
          exact ⟨hh1, hh2⟩
        refine ⟨?_, c :: r.take w2.length, ?_, ?_⟩
        · simp only [List.length_cons, List.length_drop]
          omega
        · rw [List.cons_append, List.take_append_drop]
        · simp [List.any_cons, nonWs_space]
      · split at hstep
        · obtain ⟨rfl, rfl⟩ : c :: ' ' :: r.take w1.length = e ∧ r.drop w1.length = rest := by
            injection hstep with hh
            injection hh with hh1 hh2
            exact ⟨hh1, hh2⟩
          refine ⟨?_, c :: r.take w1.length, ?_, ?_⟩
          · simp only [List.length_cons, List.length_drop]
            omega
          · rw [List.cons_append, List.take_append_drop]
          · simp [List.any_cons, nonWs_space]
        · cases hstep
    · cases hstep

/-- The letter-word spacing steps preserve runs. -/
theorem letterWordStep_okCRA (w : List Char) : StepOkCRA (letterWordStep w) := by
  intro s e rest hstep
  unfold letterWordStep at hstep
  split at hstep
  · cases hstep
  · rename_i c r
    split at hstep
    · rename_i hcond
      obtain ⟨rfl, rfl⟩ : c :: ' ' :: r.take w.length = e ∧ r.drop w.length = rest := by
        injection hstep with hh
        injection hh with hh1 hh2
        exact ⟨hh1, hh2⟩
      refine ⟨?_, c :: r.take w.length, ?_, ?_⟩
      · simp only [List.length_cons, List.length_drop]
        omega
      · rw [List.cons_append, List.take_append_drop]
      · exact CRA_space_after_nonC c (alpha_not_isC c hcond.1) (r.take w.length)
    · cases hstep

/-- The letter-word spacing steps preserve the non-whitespace test. -/
theorem letterWordStep_okAny (w : List Char) : StepOkAny nonWs (letterWordStep w) := by
  intro s e rest hstep
  unfold letterWordStep at hstep
  split at hstep
  · cases hstep
  · rename_i c r
    split at hstep
    · obtain ⟨rfl, rfl⟩ : c :: ' ' :: r.take w.length = e ∧ r.drop w.length = rest := by
        injection hstep with hh
        injection hh with hh1 hh2
        exact ⟨hh1, hh2⟩
      refine ⟨?_, c :: r.take w.length, ?_, ?_⟩
      · simp only [List.length_cons, List.length_drop]
        omega
      · rw [List.cons_append, List.take_append_drop]
      · simp [List.any_cons, nonWs_space]
    · cases hstep

/-- The paren-capital spacing step preserves runs. -/
theorem parenCapStep_okCRA : StepOkCRA parenCapStep := by
  intro s e rest hstep
  unfold parenCapStep at hstep
  split at hstep
  · rename_i a c r
    split at hstep
    · rename_i hcond
      obtain ⟨rfl, rfl⟩ : a :: ' ' :: c :: r.takeWhile Char.isLower = e ∧
          r.dropWhile Char.isLower = rest := by
        injection hstep with hh
        injection hh with hh1 hh2
        exact ⟨hh1, hh2⟩
      obtain ⟨rfl, -, -⟩ := hcond
      have hdc : (')' : Char) :: c :: r =
          (')' :: c :: r.takeWhile Char.isLower) ++ r.dropWhile Char.isLower := by
        rw [List.cons_append, List.cons_append, List.takeWhile_append_dropWhile]
      refine ⟨?_, ')' :: c :: r.takeWhile Char.isLower, hdc, ?_⟩
      · have hlen := congrArg List.length hdc
        simp only [List.length_append, List.length_cons] at hlen ⊢
        omega
      · exact CRA_space_after_nonC ')' (by decide) (c :: r.takeWhile Char.isLower)
    · cases hstep
  · cases hstep

/-- The paren-capital spacing step preserves the non-whitespace test. -/
theorem parenCapStep_okAny : StepOkAny nonWs parenCapStep := by
  intro s e rest hstep
  unfold parenCapStep at hstep
  split at hstep
  · rename_i a c r
    split at hstep
    · obtain ⟨rfl, rfl⟩ : a :: ' ' :: c :: r.takeWhile Char.isLower = e ∧
          r.dropWhile Char.isLower = rest := by
        injection hstep with hh
        injection hh with hh1 hh2
        exact ⟨hh1, hh2⟩
      have hdc : a :: c :: r =
          (a :: c :: r.takeWhile Char.isLower) ++ r.dropWhile Char.isLower := by
        rw [List.cons_append, List.cons_append, List.takeWhile_append_dropWhile]
      refine ⟨?_, a :: c :: r.takeWhile Char.isLower, hdc, ?_⟩
      · have hlen := congrArg List.length hdc
        simp only [List.length_append, List.length_cons] at hlen ⊢
        omega
      · simp [List.any_cons, nonWs_space]
    · cases hstep
  · cases hstep

/-- Inserting spaces around an ampersand preserves runs. -/
theorem amp_CRA (a c : Char) :
    ∀ acc, CRA [a, ' ', '&', ' ', c] acc = CRA [a, '&', c] acc := by
  intro acc
  cases ha : isC a <;> cases hc : isC c <;>
    simp [CRA, flushAcc, ha, hc, show isC '&' = false from by decide,
      show isC ' ' = false from by decide]

/-- The ampersand spacing step preserves runs. -/
theorem ampStep_okCRA : StepOkCRA ampStep := by
  intro s e rest hstep
  unfold ampStep at hstep
  split at hstep
  · rename_i a b c r
    split at hstep
    · rename_i hcond
      obtain ⟨rfl, rfl⟩ : [a, ' ', b, ' ', c] = e ∧ r = rest := by
        injection hstep with hh
        injection hh with hh1 hh2
        exact ⟨hh1, hh2⟩
      obtain ⟨rfl, -, -⟩ := hcond
      refine ⟨?_, [a, '&', c], rfl, amp_CRA a c⟩
      simp only [List.length_cons]
      omega
    · cases hstep
  · cases hstep

/-- The ampersand spacing step preserves the non-whitespace test. -/
theorem ampStep_okAny : StepOkAny nonWs ampStep := by
  intro s e rest hstep
  unfold ampStep at hstep
  split at hstep
  · rename_i a b c r
    split at hstep
    · obtain ⟨rfl, rfl⟩ : [a, ' ', b, ' ', c] = e ∧ r = rest := by
        injection hstep with hh
        injection hh with hh1 hh2
        exact ⟨hh1, hh2⟩
      refine ⟨?_, [a, b, c], rfl, ?_⟩
      · simp only [List.length_cons]
        omega
      · simp [List.any_cons, nonWs_space]
    · cases hstep
  · cases hstep

/-- The space-collapsing step preserves the non-whitespace test. -/
theorem spacesStep_okAny : StepOkAny nonWs spacesStep := by
  intro s e rest hstep
  unfold spacesStep at hstep
  split at hstep
  · rename_i a b r
    split at hstep
    · rename_i hcond
      obtain ⟨rfl, rfl⟩ : ([] : List Char) = e ∧ b :: r = rest := by
        injection hstep with hh
        injection hh with hh1 hh2
        exact ⟨hh1, hh2⟩
      obtain ⟨rfl, rfl⟩ := hcond
      refine ⟨?_, [' '], rfl, ?_⟩
      · simp only [List.length_cons]
        omega
      · simp [List.any_cons, nonWs_space]
    · cases hstep
  · cases hstep

/-- Dropping one of two adjacent spaces preserves `CRA`. -/
theorem CRA_double_space (x : List Char) :
    ∀ acc, CRA (' ' :: x) acc = CRA (' ' :: ' ' :: x) acc := by
  intro acc
  rw [CRA_cons_nonC ' ' (by decide), CRA_cons_nonC ' ' (by decide),
    CRA_cons_nonC ' ' (by decide)]
  simp [flushAcc]

/-- The space-collapsing scan preserves `CRA` (the dropped space is outside
every run). -/
theorem collapse_CRA : ∀ (fuel : Nat) (s : List Char), s.length ≤ fuel →
    ∀ acc, CRA (scanRewrite spacesStep fuel s) acc = CRA s acc := by
  intro fuel
  induction fuel with
  | zero => intro s _ acc; rfl
  | succ fuel ih =>
    intro s hs acc
    cases s with
    | nil => rfl
    | cons c r =>
      rw [scanRewrite]
      cases hstep : spacesStep (c :: r) with
      | none =>
        by_cases hc : isC c
        · rw [CRA_cons_C c hc, CRA_cons_C c hc]
          exact ih r (by simpa using hs) (c :: acc)
        · rw [CRA_cons_nonC c (by simpa using hc), CRA_cons_nonC c (by simpa using hc),
            ih r (by simpa using hs) []]
      | some pr =>
        rcases pr with ⟨e, rest⟩
        cases r with
        | nil =>
          rw [show spacesStep [c] = none from rfl] at hstep
          cases hstep
        | cons b r2 =>
          rw [show spacesStep (c :: b :: r2) =
              (if c = ' ' ∧ b = ' ' then some ([], b :: r2) else none) from rfl] at hstep
          split at hstep
          · rename_i hcond
            obtain ⟨rfl, rfl⟩ := hcond
            obtain ⟨rfl, rfl⟩ : ([] : List Char) = e ∧ (' ' : Char) :: r2 = rest := by
              injection hstep with hh
              injection hh with hh1 hh2
              exact ⟨hh1, hh2⟩
            show CRA ([] ++ scanRewrite spacesStep fuel (' ' :: r2)) acc =
              CRA (' ' :: ' ' :: r2) acc
            rw [List.nil_append]
            rw [ih (' ' :: r2) (by simp at hs ⊢; omega) acc]
            exact CRA_double_space r2 acc
          · cases hstep


/-- Runs ignore a head the pattern cannot consume. -/
theorem CRuns_cons_nonC (c : Char) (hc : isC c = false) (r : List Char) :
    CRuns (c :: r) = CRuns r := by
  unfold CRuns
  rw [CRA_cons_nonC c hc]
  simp [flushAcc]

/-- Leading whitespace does not change the runs. -/
theorem CRuns_dropWhile_ws (s : List Char) :
    CRuns (s.dropWhile isWsPy) = CRuns s := by
  induction s with
  | nil => rfl
  | cons c r ih =>
    by_cases hc : isWsPy c = true
    · rw [List.dropWhile_cons, if_pos hc, ih, CRuns_cons_nonC c (ws_not_isC c hc)]
    · rw [List.dropWhile_cons, if_neg hc]

/-- Trailing whitespace does not change the runs. -/
theorem CRuns_append_ws (a w : List Char) (hw : ∀ c ∈ w, isWsPy c = true) :
    CRuns (a ++ w) = CRuns a := by
  cases hwn : w with
  | nil => simp
  | cons d w' =>
    unfold CRuns
    rw [CRA_append,
      CRA_nonC (d :: w') (by simp) (fun c hc => ws_not_isC c (hw c (by rw [hwn]; exact hc)))]
    simp [flushAcc]

/-- `strip` splits the de-prefixed string into the stripped string and a
whitespace tail. -/
theorem pyStrip_decomp (s : List Char) :
    s.dropWhile isWsPy =
      pyStrip s ++ ((s.dropWhile isWsPy).reverse.takeWhile isWsPy).reverse := by
  unfold pyStrip
  conv_lhs =>
    rw [← (s.dropWhile isWsPy).reverse_reverse]
    rw [show (s.dropWhile isWsPy).reverse =
        (s.dropWhile isWsPy).reverse.takeWhile isWsPy ++
          (s.dropWhile isWsPy).reverse.dropWhile isWsPy from
      (List.takeWhile_append_dropWhile isWsPy (s.dropWhile isWsPy).reverse).symm]
  rw [List.reverse_append]

/-- Members of a reversed whitespace prefix are whitespace. -/
theorem mem_reverse_takeWhile_ws (u : List Char) (c : Char)
    (hc : c ∈ (u.takeWhile isWsPy).reverse) : isWsPy c = true := by
  rw [List.mem_reverse] at hc
  exact List.mem_takeWhile_imp hc

/-- `strip` does not change the runs. -/
theorem CRuns_pyStrip (s : List Char) : CRuns (pyStrip s) = CRuns s := by
  have h1 : CRuns (s.dropWhile isWsPy) = CRuns s := CRuns_dropWhile_ws s
  rw [pyStrip_decomp s] at h1
  rw [← h1]
  exact (CRuns_append_ws (pyStrip s) _
    (fun c hc => mem_reverse_takeWhile_ws _ c hc)).symm

/-- Leading whitespace does not change the non-whitespace test. -/
theorem any_dropWhile_ws (s : List Char) :
    (s.dropWhile isWsPy).any nonWs = s.any nonWs := by
  induction s with
  | nil => rfl
  | cons c r ih =>
    by_cases hc : isWsPy c = true
    · rw [List.dropWhile_cons, if_pos hc, ih, List.any_cons,
        show nonWs c = false from by simp [nonWs, hc]]
      simp
    · rw [List.dropWhile_cons, if_neg hc]

/-- Appending whitespace does not change the non-whitespace test. -/
theorem any_append_ws (a w : List Char) (hw : ∀ c ∈ w, isWsPy c = true) :
    (a ++ w).any nonWs = a.any nonWs := by
  rw [List.any_append,
    show w.any nonWs = false from
      List.any_eq_false.2 (fun c hc => by simp [nonWs, hw c hc])]
  simp

/-- `strip` does not change the non-whitespace test. -/
theorem any_pyStrip (s : List Char) : (pyStrip s).any nonWs = s.any nonWs := by
  have h1 : (s.dropWhile isWsPy).any nonWs = s.any nonWs := any_dropWhile_ws s
  rw [pyStrip_decomp s] at h1
  rw [← h1, any_append_ws (pyStrip s) _ (fun c hc => mem_reverse_takeWhile_ws _ c hc)]

/-- `strip` returns empty exactly when the string is all whitespace. -/
theorem pyStrip_eq_nil_iff (s : List Char) :
    pyStrip s = [] ↔ s.any nonWs = false := by
  constructor
  · intro h
    rw [← any_pyStrip s, h]
    rfl
  · intro h
    have hall : ∀ c ∈ s, isWsPy c = true := by
      intro c hc
      have h2 := List.any_eq_false.1 h c hc
      simpa [nonWs] using h2
    unfold pyStrip
    rw [List.dropWhile_eq_nil_iff.2 (fun c hc => hall c hc)]
    rfl

/-- A run-preserving pass preserves the runs. -/
theorem runPass_CRuns (step : List Char → Option (List Char × List Char))
    (hok : StepOkCRA step) (s : List Char) : CRuns (runPass step s) = CRuns s := by
  unfold CRuns runPass
  rw [scanRewrite_CRA step hok s.length s (le_refl _) []]

/-- An `any`-preserving pass preserves the non-whitespace test. -/
theorem runPass_any (step : List Char → Option (List Char × List Char))
    (hok : StepOkAny nonWs step) (s : List Char) :
    (runPass step s).any nonWs = s.any nonWs :=
  scanRewrite_any nonWs step hok s.length s (le_refl _)

/-- The space-collapsing pass preserves the runs. -/
theorem collapse_CRuns (s : List Char) : CRuns (runPass spacesStep s) = CRuns s := by
  unfold CRuns runPass
  rw [collapse_CRA s.length s (le_refl _) []]

/-- The dictionary pass preserves the runs. -/
theorem foldl_replace_CRuns :
    ∀ (l : List (List Char × List Char)), (∀ pr ∈ l, goodPair pr) →
      ∀ s, CRuns (l.foldl (fun acc p => pyReplace acc p.1 p.2) s) = CRuns s := by
  intro l
  induction l with
  | nil => intro _ s; rfl
  | cons p l ih =>
    intro hg s
    rw [List.foldl_cons, ih (fun q hq => hg q (by simp [hq])) (pyReplace s p.1 p.2)]
    exact runPass_CRuns (replStep p.1 p.2) (replStep_okCRA p.1 p.2 (hg p (by simp))) s

/-- The dictionary pass preserves the non-whitespace test. -/
theorem foldl_replace_any :
    ∀ (l : List (List Char × List Char)), (∀ pr ∈ l, goodPair pr) →
      ∀ s, (l.foldl (fun acc p => pyReplace acc p.1 p.2) s).any nonWs = s.any nonWs := by
  intro l
  induction l with
  | nil => intro _ s; rfl
  | cons p l ih =>
    intro hg s
    rw [List.foldl_cons, ih (fun q hq => hg q (by simp [hq])) (pyReplace s p.1 p.2)]
    exact runPass_any (replStep p.1 p.2) (replStep_okAny p.1 p.2 (hg p (by simp))) s

/-- Cleaning preserves the runs. -/
theorem cleanChars_CRuns (s : List Char) : CRuns (cleanChars s) = CRuns s := by
  by_cases hnil : s = []
  · rw [hnil]
    rfl
  · unfold cleanChars
    rw [if_neg hnil]
    show CRuns (pyStrip (runPass spacesStep (runPass ampStep (runPass (letterWordStep "tax".data)
      (runPass (letterWordStep "subtotal".data) (runPass (letterWordStep "total".data)
      (runPass parenCapStep (runPass (digitWordStep ('u' :: "nits".data) ('u' :: "nit".data))
      (runPass (digitWordStep ('i' :: "tems".data) ('i' :: "tem".data))
      (ocrCorrections.foldl (fun acc p => pyReplace acc p.1 p.2) s)))))))))) = CRuns s
    rw [CRuns_pyStrip, collapse_CRuns, runPass_CRuns _ ampStep_okCRA,
      runPass_CRuns _ (letterWordStep_okCRA _), runPass_CRuns _ (letterWordStep_okCRA _),
      runPass_CRuns _ (letterWordStep_okCRA _), runPass_CRuns _ parenCapStep_okCRA,
      runPass_CRuns _ (digitWordStep_okCRA 'u' 'u' "nits".data "nit".data (by decide) (by decide)),
      runPass_CRuns _ (digitWordStep_okCRA 'i' 'i' "tems".data "tem".data (by decide) (by decide)),
      foldl_replace_CRuns ocrCorrections corrections_good s]

/-- Cleaning preserves the non-whitespace test. -/
theorem cleanChars_any (s : List Char) :
    (cleanChars s).any nonWs = s.any nonWs := by
  by_cases hnil : s = []
  · rw [hnil]
    rfl
  · unfold cleanChars
    rw [if_neg hnil]
    show (pyStrip (runPass spacesStep (runPass ampStep (runPass (letterWordStep "tax".data)
      (runPass (letterWordStep "subtotal".data) (runPass (letterWordStep "total".data)
      (runPass parenCapStep (runPass (digitWordStep "units".data "unit".data)
      (runPass (digitWordStep "items".data "item".data)
      (ocrCorrections.foldl (fun acc p => pyReplace acc p.1 p.2) s)))))))))).any nonWs =
      s.any nonWs
    rw [any_pyStrip, runPass_any _ spacesStep_okAny, runPass_any _ ampStep_okAny,
      runPass_any _ (letterWordStep_okAny _), runPass_any _ (letterWordStep_okAny _),
      runPass_any _ (letterWordStep_okAny _), runPass_any _ parenCapStep_okAny,
      runPass_any _ (digitWordStep_okAny _ _), runPass_any _ (digitWordStep_okAny _ _),
      foldl_replace_any ocrCorrections corrections_good s]


/-! ## Price presence is a function of the runs -/

/-- Whether the string contains a price match. -/
def hasPriceB (s : List Char) : Bool := (priceSearch s).isSome

/-- Components of a blocked character. -/
theorem isC_false_parts (d : Char) (hd : isC d = false) :
    d.isDigit = false ∧ ¬(d = '$') ∧ ¬(d = '.') := by
  unfold isC at hd
  refine ⟨?_, ?_, ?_⟩
  · cases h1 : d.isDigit
    · rfl
    · rw [h1] at hd
      simp at hd
  · intro h1
    rw [h1] at hd
    simp at hd
  · intro h1
    rw [h1] at hd
    simp at hd

/-- The head surviving `dropWhile` fails the predicate. -/
theorem dropWhile_head_false (p : Char → Bool) :
    ∀ (l : List Char) (d : Char) (v' : List Char), l.dropWhile p = d :: v' → p d = false := by
  intro l
  induction l with
  | nil => intro d v' h; cases h
  | cons c r ih =>
    intro d v' h
    rw [List.dropWhile_cons] at h
    split at h
    · exact ih d v' h
    · rename_i hpc
      injection h with h1 _
      subst h1
      cases hb : p c
      · rfl
      · exact absurd hb hpc

/-- `takeWhile` over an append stops at a failing head of the second part. -/
theorem takeWhile_isDigit_append : ∀ (u : List Char) (d : Char) (v' : List Char),
    d.isDigit = false →
    (u ++ d :: v').takeWhile Char.isDigit = u.takeWhile Char.isDigit := by
  intro u
  induction u with
  | nil =>
    intro d v' hdd
    simp [List.takeWhile_cons, hdd]
  | cons c u0 ih =>
    intro d v' hdd
    rw [List.cons_append, List.takeWhile_cons, List.takeWhile_cons]
    cases hc : c.isDigit
    · simp
    · simp [ih d v' hdd]

/-- Dropping at most the first part of an append stays inside it. -/
theorem dropAppendLe : ∀ (n : Nat) (u v : List Char), n ≤ u.length →
    (u ++ v).drop n = u.drop n ++ v := by
  intro n
  induction n with
  | zero => intro u v _; rfl
  | succ n ih =>
    intro u v hn
    cases u with
    | nil => simp at hn
    | cons c u0 =>
      rw [List.cons_append, List.drop_succ_cons, List.drop_succ_cons]
      exact ih u0 v (by simpa using hn)

/-- The core pattern never reads past a blocked character. -/
theorem priceCore_append (u : List Char) (d : Char) (v' : List Char) (hd : isC d = false) :
    priceCore (u ++ d :: v') = priceCore u := by
  rcases isC_false_parts d hd with ⟨hdd, -, hdot⟩
  have htw : (u ++ d :: v').takeWhile Char.isDigit = u.takeWhile Char.isDigit :=
    takeWhile_isDigit_append u d v' hdd
  unfold priceCore
  rw [htw]
  by_cases h0 : u.takeWhile Char.isDigit = []
  · rw [if_pos h0, if_pos h0]
  · rw [if_neg h0, if_neg h0]
    have hlen : (u.takeWhile Char.isDigit).length ≤ u.length :=
      (List.takeWhile_prefix Char.isDigit).length_le
    rw [dropAppendLe (u.takeWhile Char.isDigit).length u (d :: v') hlen]
    rcases hu : u.drop (u.takeWhile Char.isDigit).length with _ | ⟨c0, _ | ⟨c1, _ | ⟨c2, w3⟩⟩⟩
    · rw [List.nil_append]
      rcases v' with _ | ⟨e1, _ | ⟨e2, v3⟩⟩
      · rfl
      · rfl
      · show (if d = '.' ∧ e1.isDigit ∧ e2.isDigit
            then some (u.takeWhile Char.isDigit ++ [d, e1, e2]) else none) = none
        exact if_neg (fun hcon => hdot hcon.1)
    · rcases v' with _ | ⟨e1, v3⟩
      · rfl
      · show (if c0 = '.' ∧ d.isDigit ∧ e1.isDigit
            then some (u.takeWhile Char.isDigit ++ [c0, d, e1]) else none) = none
        refine if_neg ?_
        rintro ⟨-, h2, -⟩
        rw [hdd] at h2
        cases h2
    · show (if c0 = '.' ∧ c1.isDigit ∧ d.isDigit
          then some (u.takeWhile Char.isDigit ++ [c0, c1, d]) else none) = none
      refine if_neg ?_
      rintro ⟨-, -, h3⟩
      rw [hdd] at h3
      cases h3
    · rfl

/-- The core pattern is unchanged by anything after a blocked boundary. -/
theorem priceCore_append_blocked (u v : List Char)
    (hv : v = [] ∨ ∃ d v', v = d :: v' ∧ isC d = false) :
    priceCore (u ++ v) = priceCore u := by
  rcases hv with rfl | ⟨d, v', rfl, hd⟩
  · rw [List.append_nil]
  · exact priceCore_append u d v' hd

/-- A positional match is unchanged by anything after a blocked boundary. -/
theorem matchHere_append_blocked (c : Char) (u0 v : List Char)
    (hv : v = [] ∨ ∃ d v', v = d :: v' ∧ isC d = false) :
    priceMatchHere (c :: (u0 ++ v)) = priceMatchHere (c :: u0) := by
  by_cases hc : c = '$'
  · rw [priceMatchHere, if_pos hc, priceMatchHere, if_pos hc,
      priceCore_append_blocked u0 v hv]
  · rw [priceMatchHere, if_neg hc, priceMatchHere, if_neg hc]
    exact priceCore_append_blocked (c :: u0) v hv

/-- The price pattern cannot match at a character it cannot consume. -/
theorem matchHere_none_of_nonC (c : Char) (r : List Char) (hc : isC c = false) :
    priceMatchHere (c :: r) = none := by
  rcases isC_false_parts c hc with ⟨hdd, hdol, -⟩
  rw [priceMatchHere, if_neg hdol]
  have htw : (c :: r).takeWhile Char.isDigit = [] := by
    simp [List.takeWhile_cons, hdd]
  unfold priceCore
  rw [htw]
  simp

/-- Searching past a blocked boundary splits into two searches. -/
theorem priceSearch_append_blocked (u v : List Char)
    (hv : v = [] ∨ ∃ d v', v = d :: v' ∧ isC d = false) :
    priceSearch (u ++ v) =
      match priceSearch u with
      | some m => some m
      | none => priceSearch v := by
  induction u with
  | nil =>
    rw [List.nil_append]
    rfl
  | cons c u0 ih =>
    have hL : priceSearch ((c :: u0) ++ v) =
        match priceMatchHere (c :: u0) with
        | some m => some m
        | none => priceSearch (u0 ++ v) := by
      rw [List.cons_append, priceSearch, matchHere_append_blocked c u0 v hv]
    have hR : priceSearch (c :: u0) =
        match priceMatchHere (c :: u0) with
        | some m => some m
        | none => priceSearch u0 := by
      rw [priceSearch]
    rw [hL, hR]
    cases hmh : priceMatchHere (c :: u0) with
    | some m => rfl
    | none => exact ih

/-- A maximal run followed by the blocked remainder. -/
theorem CRuns_run_cons (w v : List Char) (hwne : w ≠ []) (hall : ∀ c ∈ w, isC c = true)
    (hv : v = [] ∨ ∃ d v', v = d :: v' ∧ isC d = false) :
    CRuns (w ++ v) = w :: CRuns v := by
  unfold CRuns
  rw [CRA_append, CRA_allC w hall []]
  rcases hv with rfl | ⟨d, v', rfl, hd⟩
  · simp [CRA, flushAcc, hwne]
  · rw [CRA_cons_nonC d hd, CRA_cons_nonC d hd]
    simp [flushAcc, hwne]

/-- Price presence over a string is the disjunction over its runs. -/
theorem hasPriceB_runs_aux : ∀ (n : Nat) (s : List Char), s.length ≤ n →
    hasPriceB s = (CRuns s).any hasPriceB := by
  intro n
  induction n with
  | zero =>
    intro s hs
    rw [List.length_eq_zero.1 (Nat.le_zero.1 hs)]
    rfl
  | succ n ih =>
    intro s hs
    cases s with
    | nil => rfl
    | cons c r =>
      by_cases hc : isC c = true
      · have hw : (c :: r).takeWhile isC = c :: r.takeWhile isC := by
          rw [List.takeWhile_cons, if_pos hc]
        have hsplit : (c :: r).takeWhile isC ++ (c :: r).dropWhile isC = c :: r :=
          List.takeWhile_append_dropWhile isC (c :: r)
        have hallw : ∀ x ∈ (c :: r).takeWhile isC, isC x = true :=
          fun x hx => List.mem_takeWhile_imp hx
        have hwne : (c :: r).takeWhile isC ≠ [] := by
          rw [hw]
          simp
        have hvshape : (c :: r).dropWhile isC = [] ∨
            ∃ d v', (c :: r).dropWhile isC = d :: v' ∧ isC d = false := by
          cases hvv : (c :: r).dropWhile isC with
          | nil => exact Or.inl rfl
          | cons d v' => exact Or.inr ⟨d, v', rfl, dropWhile_head_false isC (c :: r) d v' hvv⟩
        have hvlen : ((c :: r).dropWhile isC).length ≤ r.length := by
          have hlen := congrArg List.length hsplit
          rw [List.length_append, hw, List.length_cons, List.length_cons] at hlen
          omega
        rw [← hsplit, CRuns_run_cons _ _ hwne hallw hvshape, List.any_cons,
          ← ih ((c :: r).dropWhile isC)
            (le_trans hvlen (by simp only [List.length_cons] at hs; omega))]
        unfold hasPriceB
        rw [priceSearch_append_blocked _ _ hvshape]
        cases priceSearch ((c :: r).takeWhile isC) <;> simp
      · have hc' : isC c = false := by simpa using hc
        have hps : priceSearch (c :: r) = priceSearch r := by
          rw [priceSearch, matchHere_none_of_nonC c r hc']
        rw [CRuns_cons_nonC c hc' r,
          ← ih r (by simp only [List.length_cons] at hs; omega)]
        unfold hasPriceB
        rw [hps]

/-- Price presence is a function of the runs. -/
theorem hasPriceB_runs (s : List Char) : hasPriceB s = (CRuns s).any hasPriceB :=
  hasPriceB_runs_aux s.length s (le_refl _)

/-- Cleaning does not change whether a price is present. -/
theorem priceSearch_isNone_clean (t : List Char) :
    (priceSearch (cleanChars t)).isNone = (priceSearch t).isNone := by
  have h := hasPriceB_runs (cleanChars t)
  rw [cleanChars_CRuns t, ← hasPriceB_runs t] at h
  unfold hasPriceB at h
  cases h1 : priceSearch (cleanChars t) <;> cases h2 : priceSearch t <;>
    rw [h1, h2] at h <;> simp_all

/-- For stripped text, cleaning preserves nonemptiness. -/
theorem cleanChars_pyStrip_eq_nil_iff (raw : List Char) :
    cleanChars (pyStrip raw) = [] ↔ pyStrip raw = [] := by
  constructor
  · intro h
    have h2 := cleanChars_any (pyStrip raw)
    rw [h, show ([] : List Char).any nonWs = false from rfl] at h2
    rw [pyStrip_eq_nil_iff raw, ← any_pyStrip raw]
    exact h2.symm
  · intro h
    rw [h]
    rfl


/-- The spec's store-name selection: scan the first three fragments in
y-ascending order and take the first whose cleaned text is nonempty and free
of a price match, in cleaned form. -/
def storeNameSpec (blocks : List Block) : Option String :=
  ((sortByY blocks).take 3).findSome? (fun b =>
    let u := cleanChars (pyStrip b.text.data)
    if u ≠ [] ∧ (priceSearch u).isNone then some (⟨u⟩ : String) else none)

/-- C7: the store name is determined by scanning only the first three
fragments in y-ascending order; the first whose cleaned text is nonempty and
does not contain a price match becomes the store name in cleaned form, and if
none qualifies the store name is absent.  The code tests the raw stripped
text, but cleaning changes neither emptiness nor the presence of a price
match, so the specification's cleaned-text test selects the same fragment and
value. -/
theorem C7_store_name (blocks : List Block) :
    storeNameSpec blocks = storeNameOf blocks := by
  unfold storeNameSpec storeNameOf
  congr 1
  funext b
  show (if cleanChars (pyStrip b.text.data) ≠ [] ∧
        (priceSearch (cleanChars (pyStrip b.text.data))).isNone = true then
      some (⟨cleanChars (pyStrip b.text.data)⟩ : String) else none) =
    (if pyStrip b.text.data ≠ [] ∧ (priceSearch (pyStrip b.text.data)).isNone = true then
      some (clean_ocr_text ⟨pyStrip b.text.data⟩) else none)
  by_cases hcond : pyStrip b.text.data ≠ [] ∧
      (priceSearch (pyStrip b.text.data)).isNone = true
  · have hspec : cleanChars (pyStrip b.text.data) ≠ [] ∧
        (priceSearch (cleanChars (pyStrip b.text.data))).isNone = true := by
      constructor
      · intro h
        exact hcond.1 ((cleanChars_pyStrip_eq_nil_iff b.text.data).1 h)
      · rw [priceSearch_isNone_clean (pyStrip b.text.data)]
        exact hcond.2
    rw [if_pos hspec, if_pos hcond]
    rfl
  · have hspec : ¬(cleanChars (pyStrip b.text.data) ≠ [] ∧
        (priceSearch (cleanChars (pyStrip b.text.data))).isNone = true) := by
      intro hcc
      apply hcond
      constructor
      · intro h
        exact hcc.1 ((cleanChars_pyStrip_eq_nil_iff b.text.data).2 h)
      · rw [← priceSearch_isNone_clean (pyStrip b.text.data)]
        exact hcc.2
    rw [if_neg hspec, if_neg hcond]

end ReceiptsOcr
